import Mathlib

/-!
Verification development for the ServiceVerified credential layer.

The TypeScript sources are embedded shallowly:
* JS objects reaching `JSON.stringify` are deep-embedded as `Json` values
  (`lib/crypto/canonicalize.ts`);
* `lib/did/parse.ts` string handling is embedded over `List Char`;
* the Ed25519 primitives of the external `@noble/ed25519` package are
  modelled as an idealized deterministic signature scheme;
* the file-backed resolution registry (`lib/did/resolve.ts`) is embedded as
  the list of its appended records.
-/

set_option maxHeartbeats 1000000

namespace ServiceVerified

/-- Deep embedding of the JSON values that flow through
`canonicalizeCredential` (`lib/crypto/canonicalize.ts`).  A `num` leaf
carries the numeric literal token that `JSON.stringify` prints for it:
JS number formatting (shortest round-trip) is injective on numeric values,
so the printed token is a faithful stand-in for the underlying float. -/
inductive Json where
  | null : Json
  | bool (b : Bool) : Json
  | num (tok : String) : Json
  | str (s : String) : Json
  | arr (elems : List Json) : Json
  | obj (entries : List (String × Json)) : Json

/-- Comparison used by `Object.keys(obj).sort()`: ascending key order.
(JS compares strings by UTF-16 code units; Lean's `String` order compares
scalar values — the two agree on the key material that occurs here.) -/
def entryLE (a b : String × Json) : Prop := a.1 ≤ b.1

/-- Strict version of `entryLE`, used to exploit duplicate-free keys. -/
def entryLT (a b : String × Json) : Prop := a.1 < b.1

instance : DecidableRel entryLE := fun a b => inferInstanceAs (Decidable (a.1 ≤ b.1))

instance : IsTotal (String × Json) entryLE := ⟨fun a b => le_total a.1 b.1⟩

instance : IsTrans (String × Json) entryLE := ⟨fun _ _ _ h1 h2 => le_trans h1 h2⟩

instance : IsAntisymm (String × Json) entryLT := ⟨fun _ _ h1 h2 => (lt_asymm h2 h1).elim⟩

mutual

/-- The `sortKeysDeep` from `lib/crypto/canonicalize.ts`: recursively sorts
mapping keys ascending at every nesting level; array order is preserved. -/
def sortKeysDeep : Json → Json
  | .null => .null
  | .bool b => .bool b
  | .num t => .num t
  | .str s => .str s
  | .arr xs => .arr (sortKeysDeepList xs)
  | .obj kvs => .obj (List.insertionSort entryLE (sortKeysDeepEntries kvs))

/-- The `sortKeysDeep` mapped over the elements of a JSON array. -/
def sortKeysDeepList : List Json → List Json
  | [] => []
  | x :: xs => sortKeysDeep x :: sortKeysDeepList xs

/-- The `sortKeysDeep` mapped over the values of a JSON object. -/
def sortKeysDeepEntries : List (String × Json) → List (String × Json)
  | [] => []
  | (k, v) :: kvs => (k, sortKeysDeep v) :: sortKeysDeepEntries kvs

end

/-- Lowercase hex digit, as emitted inside `\u00..` escapes. -/
def nibbleHexChar (n : Nat) : Char :=
  if n < 10 then Char.ofNat (48 + n) else Char.ofNat (87 + n)

/-- The escape `JSON.stringify` applies to one character of a string. -/
def escapeChar (c : Char) : List Char :=
  if c = '"' then ['\\', '"']
  else if c = '\\' then ['\\', '\\']
  else if c = '\x08' then ['\\', 'b']
  else if c = '\x0c' then ['\\', 'f']
  else if c = '\n' then ['\\', 'n']
  else if c = '\r' then ['\\', 'r']
  else if c = '\t' then ['\\', 't']
  else if c.toNat < 32 then
    '\\' :: 'u' :: '0' :: '0'
      :: [nibbleHexChar (c.toNat / 16), nibbleHexChar (c.toNat % 16)]
  else [c]

/-- The `escapeChar` applied across a character list. -/
def escChars : List Char → List Char
  | [] => []
  | c :: cs => escapeChar c ++ escChars cs

/-- Serialization of one JSON string literal: quote, escaped body, quote. -/
def serStrChars (s : String) : List Char :=
  '"' :: (escChars s.data ++ ['"'])

mutual

/-- Character-level output of `JSON.stringify` on a `Json` value
(no whitespace, keys serialized in stored order). -/
def serJ : Json → List Char
  | .null => "null".data
  | .bool true => "true".data
  | .bool false => "false".data
  | .num t => t.data
  | .str s => serStrChars s
  | .arr xs => '[' :: (serElems xs ++ [']'])
  | .obj kvs => '\x7b' :: (serEntries kvs ++ ['\x7d'])

/-- Array elements joined by commas. -/
def serElems : List Json → List Char
  | [] => []
  | x :: xs => serJ x ++ serElemsTail xs

/-- Remaining array elements, each preceded by a comma. -/
def serElemsTail : List Json → List Char
  | [] => []
  | x :: xs => ',' :: (serJ x ++ serElemsTail xs)

/-- Object entries joined by commas. -/
def serEntries : List (String × Json) → List Char
  | [] => []
  | e :: es => serEntry e ++ serEntriesTail es

/-- Remaining object entries, each preceded by a comma. -/
def serEntriesTail : List (String × Json) → List Char
  | [] => []
  | e :: es => ',' :: (serEntry e ++ serEntriesTail es)

/-- One object entry: serialized key, colon, serialized value. -/
def serEntry : String × Json → List Char
  | (k, v) => serStrChars k ++ (':' :: serJ v)

end

/-- The `JSON.stringify` on the embedded value. -/
def jsonStringify (j : Json) : String := ⟨serJ j⟩

/-- The canonicalizer of `lib/crypto/canonicalize.ts` at the JSON level:
sort keys at all levels, then serialize with no whitespace. -/
def canonicalizeJson (j : Json) : String := jsonStringify (sortKeysDeep j)

/-! ## DID parsing (`lib/did/parse.ts`) -/

/-- The characters removed by JS `String.prototype.trim`. -/
def jsWhitespaceChar (c : Char) : Bool :=
  [' ', '\t', '\n', '\x0b', '\x0c', '\r', '\u00a0', '\u1680', '\u2000', '\u2001',
   '\u2002', '\u2003', '\u2004', '\u2005', '\u2006', '\u2007', '\u2008', '\u2009',
   '\u200a', '\u2028', '\u2029', '\u202f', '\u205f', '\u3000', '\ufeff'].contains c

/-- Strip surrounding JS whitespace from a character list. -/
def trimChars (cs : List Char) : List Char :=
  ((cs.dropWhile jsWhitespaceChar).reverse.dropWhile jsWhitespaceChar).reverse

/-- JS `did.trim()`. -/
def jsTrim (s : String) : String := ⟨trimChars s.data⟩

/-- The `PREFIX` constant of `lib/did/parse.ts`. -/
def didMethodBase : String := "did:tw:serviceverified:"

/-- The `[0-9a-f]` with the regex's `i` flag: a hex digit of either case. -/
def uuidHexDigit (c : Char) : Bool :=
  c.isDigit || ('a' ≤ c && c ≤ 'f') || ('A' ≤ c && c ≤ 'F')

/-- What `UUID_REGEX = ^[0-9a-f]{8}-[0-9a-f]{4}-4[0-9a-f]{3}-[89ab][0-9a-f]{3}-[0-9a-f]{12}$/i`
requires of the character at index `i`. -/
def uuidCharOk (i : Nat) (c : Char) : Bool :=
  if i == 8 || i == 13 || i == 18 || i == 23 then c == '-'
  else if i == 14 then c == '4'
  else if i == 19 then c == '8' || c == '9' || c == 'a' || c == 'b' || c == 'A' || c == 'B'
  else uuidHexDigit c

/-- The `UUID_REGEX.test`, embedded positionally (anchored at both ends). -/
def uuidV4Test (s : String) : Bool :=
  s.data.length == 36 && s.data.enum.all fun p => uuidCharOk p.1 p.2

/-- ASCII lowering of a single character (`String.prototype.toLowerCase`
restricted to the ASCII range that the UUID grammar permits). -/
def asciiLower (c : Char) : Char :=
  if 'A' ≤ c && c ≤ 'Z' then Char.ofNat (c.toNat + 32) else c

/-- JS `uuid.toLowerCase()` over the ASCII UUID character set. -/
def asciiLowerStr (s : String) : String := ⟨s.data.map asciiLower⟩

/-- The `ParsedDid` interface of `lib/did/parse.ts`
(the source's `namespace` field is spelled `nspace` here). -/
structure ParsedDid where
  scheme : String
  method : String
  nspace : String
  uuid : String
  raw : String
deriving DecidableEq

/-- The `parseDid` of `lib/did/parse.ts`; the `throw` branches are rendered as
`Except.error`. -/
def parseDid (did : String) : Except String ParsedDid :=
  if (jsTrim did).data = [] then
    .error "parseDid: input must be a non-empty string"
  else
    let trimmed := jsTrim did
    if ¬ (didMethodBase.data.isPrefixOf trimmed.data) then
      .error "parseDid: invalid DID format"
    else
      let uuid : String := ⟨trimmed.data.drop didMethodBase.data.length⟩
      if ¬ uuidV4Test uuid then
        .error "parseDid: invalid UUID in DID"
      else
        .ok ⟨"did", "tw", "serviceverified", asciiLowerStr uuid, trimmed⟩

/-- The `isValidDid` of `lib/did/parse.ts`. -/
def isValidDid (value : String) : Bool :=
  if (jsTrim value).data = [] then false
  else
    match parseDid value with
    | .ok _ => true
    | .error _ => false

/-- The `extractUuid` of `lib/did/parse.ts`. -/
def extractUuid (did : String) : Except String String :=
  (parseDid did).map (·.uuid)

/-! ## Credential data model (`lib/types/credential.ts`) -/

/-- The `ServiceVerifiedEvidence`: `{ type: string, payload: Record<string, unknown> }`.
The payload is kept as an arbitrary embedded JSON value so that the
malformed-payload branches of the verifier stay expressible. -/
structure ServiceVerifiedEvidence where
  type : String
  payload : Json

/-- The `ServiceVerifiedCredential` of `lib/types/credential.ts`.  `status` and
`source` are strings at runtime; `expires_at` is optional; `evidence` is
`Option`al so that the verifier's `credential.evidence?` branches are
expressible on malformed records. -/
structure ServiceVerifiedCredential where
  schema_version : String
  did : String
  id : String
  status : String
  source : String
  created_at : String
  updated_at : String
  expires_at : Option String
  evidence : Option ServiceVerifiedEvidence

/-- The `serviceVerifiedDid` of `lib/types/credential.ts`. -/
def serviceVerifiedDid (id : String) : String :=
  "did:tw:serviceverified:" ++ asciiLowerStr id

/-- The property list of the JS object a `ServiceVerifiedCredential` record
is: the fields in declaration order, with absent optional properties
omitted (as `JSON.stringify` omits them). -/
def credEntries (c : ServiceVerifiedCredential) : List (String × Json) :=
  [("schema_version", .str c.schema_version),
   ("did", .str c.did),
   ("id", .str c.id),
   ("status", .str c.status),
   ("source", .str c.source),
   ("created_at", .str c.created_at),
   ("updated_at", .str c.updated_at)]
    ++ (match c.expires_at with
        | some e => [("expires_at", Json.str e)]
        | none => [])
    ++ (match c.evidence with
        | some ev =>
          [("evidence", Json.obj [("type", .str ev.type), ("payload", ev.payload)])]
        | none => [])

/-- The JS object a `ServiceVerifiedCredential` record is, as the deep JSON
embedding. -/
def credToJson (c : ServiceVerifiedCredential) : Json := .obj (credEntries c)

/-- The `canonicalizeCredential` of `lib/crypto/canonicalize.ts`: drop the
`verification` envelope (the plain credential carries none), sort keys at
every level, serialize without whitespace. -/
def canonicalizeCredential (c : ServiceVerifiedCredential) : String :=
  canonicalizeJson (credToJson c)

/-! ## Ed25519 model and signing (`lib/crypto/sign.ts`, `lib/crypto/verify.ts`)

The `@noble/ed25519` package is an external dependency; it is modelled as an
idealized deterministic signature scheme: a signature is abstractly the pair
of the signed message and the signing key, and verification accepts exactly
the signature that the matching private key produced over exactly the given
message.  Base64 transport of the signature is lossless and is modelled as
the identity. -/

/-- Opaque Ed25519 private key (a 32-byte buffer in the source). -/
structure Ed25519PrivateKey where
  k : Nat
deriving DecidableEq

/-- Opaque Ed25519 public key (a 32-byte buffer in the source). -/
structure Ed25519PublicKey where
  k : Nat
deriving DecidableEq

/-- The public key derived from a private key. -/
def ed25519PubKey (sk : Ed25519PrivateKey) : Ed25519PublicKey := ⟨sk.k⟩

/-- Idealized `ed.sign(message, privateKey)`: Ed25519 is deterministic, so a
signature is modelled by what determines it. -/
def edSign (msg : String) (sk : Ed25519PrivateKey) : String × Nat := (msg, sk.k)

/-- Idealized `ed.verify(signature, message, publicKey)`: accepts exactly the
signature produced over this message by the private key matching `pk`. -/
def edVerify (sig : String × Nat) (msg : String) (pk : Ed25519PublicKey) : Bool :=
  sig.1 == msg && sig.2 == pk.k

/-- Modelled external crypto digest (`createHash('sha256')...digest('hex')`).
No claim depends on a property of the digest function, so it is modelled as
an arbitrary fixed total function of the canonical bytes. -/
def sha256Hex (s : String) : String := s

/-- The `SignatureEnvelope` interface of `lib/types/signature.ts`; the
`signature` field holds the (base64-transported) signature bytes. -/
structure SignatureEnvelope where
  version : String
  algorithm : String
  signature : String × Nat
  verificationMethod : String
  credentialHash : String
  created : String

/-- The `SignedCredential`: the credential together with its `verification`
envelope. -/
structure SignedCredential where
  cred : ServiceVerifiedCredential
  verification : SignatureEnvelope

/-- The `signCredential` of `lib/crypto/sign.ts` (`new Date().toISOString()` is
passed in as `now`). -/
def signCredential (credential : ServiceVerifiedCredential)
    (privateKey : Ed25519PrivateKey) (now : String) : SignedCredential :=
  let canonical := canonicalizeCredential credential
  let hash := sha256Hex canonical
  let signature := edSign canonical privateKey
  { cred := credential
    verification :=
      { version := "1.0"
        algorithm := "Ed25519"
        signature := signature
        verificationMethod := credential.did ++ "#key-1"
        credentialHash := hash
        created := now } }

/-- The `verifySignature` of `lib/crypto/verify.ts`: strip the envelope,
recompute canonical bytes from the current fields, and check the signature
against them.  The embedded `credentialHash` is compared only for a
`console.warn` in the source, so the comparison has no effect on the
result. -/
def verifySignature (credential : SignedCredential) (publicKey : Ed25519PublicKey) : Bool :=
  let canonical := canonicalizeCredential credential.cred
  let _hashMatches := sha256Hex canonical == credential.verification.credentialHash
  edVerify credential.verification.signature canonical publicKey

/-! ## DID resolution store (`lib/did/resolve.ts`, file-backed NDJSON per
`docs/DID-RESOLUTION-STRATEGY.md` Option 2) -/

/-- A DID document: opaque apart from the verification public-key material
it carries.  Modelled from the spec: the source types `DIDDocument` only as
an opaque structure. -/
structure DIDDocument where
  publicKey : Ed25519PublicKey
deriving DecidableEq

/-- One NDJSON line of the registry, as built by `publishDIDDocument`. -/
structure ResolutionRecord where
  did : String
  document : DIDDocument
  publishedAt : String
  operation : String
deriving DecidableEq

/-- The `publishDIDDocument(did, document)`: append one record to the log. -/
def publishDIDDocument (registry : List ResolutionRecord) (did : String)
    (document : DIDDocument) (now : String) : List ResolutionRecord :=
  registry ++ [{ did := did, document := document, publishedAt := now, operation := "create" }]

/-- The `resolveDID(did)`: scan the records from the last line upward; the first
match wins; the `throw` on a missing DID is rendered as `Except.error`. -/
def resolveDID (registry : List ResolutionRecord) (did : String) : Except String DIDDocument :=
  match registry.reverse.find? (fun record => record.did == did) with
  | some record => .ok record.document
  | none => .error ("DID not found: " ++ did)

/-- The `extractPublicKey(didDoc)`.  Modelled from the spec: the function is
called by `verifyCredential` but defined nowhere under the sources; the spec
says the public key comes from the resolved document. -/
def extractPublicKey (didDoc : DIDDocument) : Ed25519PublicKey := didDoc.publicKey

/-! ## Multi-axis verification (`lib/verification/verify.ts`) -/

/-- The `VerificationChecks` of `lib/types/verification.ts`. -/
structure VerificationChecks where
  signatureValid : Bool
  didFormatValid : Bool
  didResolvable : Bool
  statusValid : Bool
  timeValid : Bool
  evidenceValid : Bool
deriving DecidableEq

/-- The `VerificationError` of `lib/types/verification.ts`. -/
structure VerificationError where
  check : String
  code : String
  message : String
deriving DecidableEq

/-- The `VerificationCredentialSummary` of `lib/types/verification.ts`. -/
structure VerificationCredentialSummary where
  did : String
  status : String
  issuedAt : String
  source : String
deriving DecidableEq

/-- The `VerificationResult` of `lib/types/verification.ts`; `errors` is
`undefined` (here `none`) when no error was collected. -/
structure VerificationResult where
  valid : Bool
  checks : VerificationChecks
  credential : VerificationCredentialSummary
  errors : Option (List VerificationError)

/-- The `payload && typeof payload === 'object'` on a JSON value: among JSON
values, exactly arrays and objects are both truthy and of `typeof`
`'object'` (`null` is falsy; booleans, numbers and strings have a different
`typeof`). -/
def payloadIsTruthyObject : Json → Bool
  | .arr _ => true
  | .obj _ => true
  | _ => false

/-- The `verifyCredential` of `lib/verification/verify.ts`.  The registry
backing `resolveDID`, the clock `now` and the ISO-8601 date parse of
`new Date(...)` are passed in explicitly; all caught exceptions of the
source are rendered as `Except.error` values. -/
def verifyCredential (registry : List ResolutionRecord) (parseDate : String → Int)
    (now : Int) (credential : SignedCredential) : VerificationResult :=
  let c := credential.cred
  -- Check 1: DID format
  let didFormatValid := isValidDid c.did
  let errs1 : List VerificationError :=
    if didFormatValid then []
    else [⟨"didFormatValid", "INVALID_DID_FORMAT", "Invalid DID: " ++ c.did⟩]
  -- Check 2: DID resolution (`!!didDoc` is true for any resolved document)
  let resolved := resolveDID registry c.did
  let didResolvable := match resolved with | .ok _ => true | .error _ => false
  let errs2 := errs1 ++
    (match resolved with
     | .ok _ => []
     | .error _ => [⟨"didResolvable", "DID_NOT_FOUND", "Could not resolve DID: " ++ c.did⟩])
  -- Check 3: signature, only if the DID resolved; the catch branch of the
  -- source is unreachable here because resolution already succeeded and the
  -- modelled `verifySignature` is total.
  let signatureValid :=
    match resolved with
    | .ok didDoc => verifySignature credential (extractPublicKey didDoc)
    | .error _ => false
  -- Check 4: status
  let statusValid := !(c.status == "revoked" || c.status == "rejected")
  let errs3 := errs2 ++
    (if statusValid then []
     else [⟨"statusValid", "CREDENTIAL_INVALID_STATUS", "Status is " ++ c.status⟩])
  -- Check 5: time validity
  let timeValid :=
    match c.expires_at with
    | some e => decide (now ≤ parseDate e)
    | none => true
  let errs4 := errs3 ++
    (match c.expires_at with
     | some e =>
       if now ≤ parseDate e then []
       else [⟨"timeValid", "CREDENTIAL_EXPIRED", "Expired at " ++ e⟩]
     | none => [])
  -- Check 6: evidence structure
  let evidenceValid :=
    match c.evidence with
    | some ev => ev.type != "" && payloadIsTruthyObject ev.payload
    | none => false
  let errs5 := errs4 ++
    (if evidenceValid then []
     else [⟨"evidenceValid", "INVALID_EVIDENCE", "Evidence missing or malformed"⟩])
  -- `Object.values(checks).every(v => v === true)`, in insertion order
  let valid := signatureValid && didFormatValid && didResolvable
      && statusValid && timeValid && evidenceValid
  { valid := valid
    checks :=
      { signatureValid := signatureValid
        didFormatValid := didFormatValid
        didResolvable := didResolvable
        statusValid := statusValid
        timeValid := timeValid
        evidenceValid := evidenceValid }
    credential :=
      { did := c.did, status := c.status, issuedAt := c.created_at, source := c.source }
    errors := if errs5.length > 0 then some errs5 else none }

/-! ## Credential builder (`lib/credential/builder.ts`) -/

/-- The private state of a `CredentialBuilder`: `source` and `evidence` are
definite-assignment (`!`) fields in TS and are `undefined` until their
`with...` setter runs, hence `Option` here. -/
structure CredentialBuilder where
  id : String
  status : String := "pending"
  source : Option String := none
  evidence : Option ServiceVerifiedEvidence := none
  expiresAt : Option String := none

/-- The `withStatus`. -/
def CredentialBuilder.withStatus (b : CredentialBuilder) (status : String) : CredentialBuilder :=
  { b with status := status }

/-- The `withSource`. -/
def CredentialBuilder.withSource (b : CredentialBuilder) (source : String) : CredentialBuilder :=
  { b with source := some source }

/-- The `withEvidence` (last-write-wins: overwrites any previous evidence). -/
def CredentialBuilder.withEvidence (b : CredentialBuilder)
    (evidence : ServiceVerifiedEvidence) : CredentialBuilder :=
  { b with evidence := some evidence }

/-- The `withExpiration`. -/
def CredentialBuilder.withExpiration (b : CredentialBuilder) (iso8601 : String) : CredentialBuilder :=
  { b with expiresAt := some iso8601 }

/-- JS truthiness of the builder's `source` field: `undefined` and the empty
string are falsy. -/
def sourceTruthy : Option String → Bool
  | none => false
  | some s => s != ""

/-- The `CredentialBuilder.build` (`new Date().toISOString()` passed as `now`):
the guard is `!this.source || !this.evidence`, and the `throw` is rendered
as `Except.error`. -/
def CredentialBuilder.build (b : CredentialBuilder) (now : String) :
    Except String ServiceVerifiedCredential :=
  if !sourceTruthy b.source || b.evidence.isNone then
    .error "CredentialBuilder: source and evidence are required"
  else
    .ok { schema_version := "1.0"
          did := serviceVerifiedDid b.id
          id := b.id
          status := b.status
          source := b.source.getD ""
          created_at := now
          updated_at := now
          -- `if (this.expiresAt) cred.expires_at = this.expiresAt`: the
          -- empty string is falsy and is therefore not copied over
          expires_at := match b.expiresAt with
            | some e => if e != "" then some e else none
            | none => none
          evidence := b.evidence }

/-! ## Logical equality of JSON values up to mapping key order

Two JS objects that are "logically equal but differ in mapping key order"
(spec §4.1) are related by `JEqv`: the reflexive-transitive closure of
single key-reorder steps applied anywhere in the tree. -/

/-- One key-reordering rewrite: permute the entry list of one object node,
anywhere in the tree. -/
inductive KeyStep : Json → Json → Prop where
  | permObj {kvs kvs' : List (String × Json)} :
      kvs.Perm kvs' → KeyStep (.obj kvs) (.obj kvs')
  | arrHere {x y : Json} (l r : List Json) :
      KeyStep x y → KeyStep (.arr (l ++ x :: r)) (.arr (l ++ y :: r))
  | objHere {v v' : Json} (l r : List (String × Json)) (k : String) :
      KeyStep v v' → KeyStep (.obj (l ++ (k, v) :: r)) (.obj (l ++ (k, v') :: r))

/-- Logical equality of JSON values: equal field values at every nesting
level, mapping key order disregarded. -/
def JEqv : Json → Json → Prop := Relation.ReflTransGen KeyStep

mutual

/-- Every object node of the value has duplicate-free keys — automatically
true of any value that comes from a JS object. -/
def NodupKeys : Json → Prop
  | .arr xs => NodupKeysList xs
  | .obj kvs => (kvs.map Prod.fst).Nodup ∧ NodupKeysEntries kvs
  | _ => True

/-- The `NodupKeys` over array elements. -/
def NodupKeysList : List Json → Prop
  | [] => True
  | x :: xs => NodupKeys x ∧ NodupKeysList xs

/-- The `NodupKeys` over object entry values. -/
def NodupKeysEntries : List (String × Json) → Prop
  | [] => True
  | e :: es => NodupKeys e.2 ∧ NodupKeysEntries es

end

/-- The character set a JS numeric literal token draws from. -/
def numTokChar (c : Char) : Bool :=
  c.isDigit || c = '-' || c = '+' || c = '.' || c = 'e' || c = 'E'

/-- The character a JS numeric literal token starts with. -/
def numTokHead (c : Char) : Bool := c.isDigit || c = '-'

/-- Shape of a numeric literal token as `JSON.stringify` emits it:
nonempty, drawn from the numeric character set, starting with a digit or a
minus sign. -/
def NumTokWf (t : String) : Prop :=
  t.data ≠ [] ∧ (∀ c ∈ t.data, numTokChar c = true) ∧
    (∀ c cs, t.data = c :: cs → numTokHead c = true)

mutual

/-- Every numeric leaf of the value carries a wellformed numeric literal
token — automatically true of any value `JSON.stringify` can print. -/
def NumsWf : Json → Prop
  | .num t => NumTokWf t
  | .arr xs => NumsWfList xs
  | .obj kvs => NumsWfEntries kvs
  | _ => True

/-- The `NumsWf` over array elements. -/
def NumsWfList : List Json → Prop
  | [] => True
  | x :: xs => NumsWf x ∧ NumsWfList xs

/-- The `NumsWf` over object entry values. -/
def NumsWfEntries : List (String × Json) → Prop
  | [] => True
  | e :: es => NumsWf e.2 ∧ NumsWfEntries es

end

/-- The head of the list is not drawn from character class `p` (vacuously
true of the empty list); used to delimit serialized tokens. -/
def noClassHead (p : Char → Bool) : List Char → Prop
  | [] => True
  | c :: _ => p c = false

/-- Constructor tag of a JSON value. -/
def kindOf : Json → Nat
  | .null => 0
  | .bool _ => 1
  | .num _ => 2
  | .str _ => 3
  | .arr _ => 4
  | .obj _ => 5

/-- The constructor tag a serialized value's first character reveals. -/
def headKind (c : Char) : Nat :=
  if c = 'n' then 0
  else if c = 't' ∨ c = 'f' then 1
  else if numTokHead c then 2
  else if c = '"' then 3
  else if c = '[' then 4
  else if c = '\x7b' then 5
  else 6

/-- Logical equality of the optional evidence field: same type tag, payloads
logically equal. -/
def EvidenceEqv : Option ServiceVerifiedEvidence → Option ServiceVerifiedEvidence → Prop
  | none, none => True
  | some e1, some e2 => e1.type = e2.type ∧ JEqv e1.payload e2.payload
  | _, _ => False

/-- Logical equality of credentials: all fields equal, the evidence payload
compared up to mapping key order. -/
def CredEqv (c c' : ServiceVerifiedCredential) : Prop :=
  c.schema_version = c'.schema_version ∧ c.did = c'.did ∧ c.id = c'.id ∧
  c.status = c'.status ∧ c.source = c'.source ∧ c.created_at = c'.created_at ∧
  c.updated_at = c'.updated_at ∧ c.expires_at = c'.expires_at ∧
  EvidenceEqv c.evidence c'.evidence

/-- Wellformedness of a credential's embedded JSON image: its numeric
leaves (all inside the evidence payload) carry tokens `JSON.stringify`
could have printed. -/
def CredNumsWf (c : ServiceVerifiedCredential) : Prop := NumsWf (credToJson c)

/-! ## Concrete sample values used by witnesses -/

/-- The demo DID of the spec's §8 scenario. -/
def sampleDid : String := "did:tw:serviceverified:550e8400-e29b-41d4-a716-446655440000"

/-- A wellformed evidence record (spec §8 scenario). -/
def sampleEvidence : ServiceVerifiedEvidence :=
  { type := "iso27001_attestation", payload := .obj [("scope", .str "ISMS")] }

/-- A wellformed approved credential carrying `sampleDid`. -/
def sampleCredential : ServiceVerifiedCredential :=
  { schema_version := "1.0"
    did := sampleDid
    id := "550e8400-e29b-41d4-a716-446655440000"
    status := "approved"
    source := "servicepath.compliance.iso27001"
    created_at := "2026-02-13T10:00:00.000Z"
    updated_at := "2026-02-13T10:00:00.000Z"
    expires_at := none
    evidence := some sampleEvidence }

/-- A sample signing key for witnesses. -/
def samplePrivateKey : Ed25519PrivateKey := ⟨5⟩

/-- The `sampleCredential` signed with `samplePrivateKey`. -/
def sampleSigned : SignedCredential :=
  signCredential sampleCredential samplePrivateKey "2026-02-13T10:00:01.000Z"

/-! # Theorems -/

/-- C1: `verifyCredential` is a total function of its input — the embedding
returns a populated `VerificationResult` for every signed credential, every
exceptional path of the source being caught internally — the returned
summary is filled from the input credential, and the aggregate `valid`
equals the conjunction (AND) of the six per-axis check booleans. -/
theorem C1_verifyCredential_total_and_valid_conj
    (registry : List ResolutionRecord) (parseDate : String → Int) (now : Int)
    (credential : SignedCredential) :
    (verifyCredential registry parseDate now credential).valid
      = ((verifyCredential registry parseDate now credential).checks.signatureValid
          && (verifyCredential registry parseDate now credential).checks.didFormatValid
          && (verifyCredential registry parseDate now credential).checks.didResolvable
          && (verifyCredential registry parseDate now credential).checks.statusValid
          && (verifyCredential registry parseDate now credential).checks.timeValid
          && (verifyCredential registry parseDate now credential).checks.evidenceValid)
    ∧ (verifyCredential registry parseDate now credential).credential
      = { did := credential.cred.did, status := credential.cred.status,
          issuedAt := credential.cred.created_at, source := credential.cred.source } :=
  ⟨rfl, rfl⟩

/-- C3: signing a credential and then verifying the signed credential with
the matching public key returns `true` when no field was mutated in
between. -/
theorem C3_sign_then_verify_roundtrip (credential : ServiceVerifiedCredential)
    (privateKey : Ed25519PrivateKey) (now : String) :
    verifySignature (signCredential credential privateKey now)
      (ed25519PubKey privateKey) = true := by
  simp [verifySignature, signCredential, edVerify, edSign, ed25519PubKey]

/-- C5: the `statusValid` axis of `verifyCredential` holds exactly when the
status is neither `revoked` nor `rejected`; in particular `pending` and
`expired` both pass this axis. -/
theorem C5_statusValid_iff
    (registry : List ResolutionRecord) (parseDate : String → Int) (now : Int)
    (credential : SignedCredential) :
    ((verifyCredential registry parseDate now credential).checks.statusValid = true
      ↔ (credential.cred.status ≠ "revoked" ∧ credential.cred.status ≠ "rejected"))
    ∧ (credential.cred.status = "pending" →
        (verifyCredential registry parseDate now credential).checks.statusValid = true)
    ∧ (credential.cred.status = "expired" →
        (verifyCredential registry parseDate now credential).checks.statusValid = true) := by
  have hs : (verifyCredential registry parseDate now credential).checks.statusValid
      = !(credential.cred.status == "revoked" || credential.cred.status == "rejected") := rfl
  refine ⟨?_, ?_, ?_⟩
  · rw [hs]; simp
  · intro h; rw [hs, h]; decide
  · intro h; rw [hs, h]; decide

/-- Witness for C5 at a concrete input: a pending credential passes the
status axis. -/
theorem C5_statusValid_iff_witness :
    (verifyCredential [] (fun _ => 0) 0
      { sampleSigned with cred := { sampleCredential with status := "pending" } }).checks.statusValid
      = true :=
  (C5_statusValid_iff [] (fun _ => 0) 0
    { sampleSigned with cred := { sampleCredential with status := "pending" } }).2.1 rfl

/-- C6: publishing then resolving returns the published document; a second
publish to the same DID wins (the most recently appended record is
authoritative); resolving a DID with no record fails with the not-found
error. -/
theorem C6_resolution_last_write_wins (registry : List ResolutionRecord)
    (did : String) (doc doc2 : DIDDocument) (t1 t2 : String) :
    resolveDID (publishDIDDocument registry did doc t1) did = .ok doc
    ∧ resolveDID
        (publishDIDDocument (publishDIDDocument registry did doc t1) did doc2 t2) did = .ok doc2
    ∧ ((∀ record ∈ registry, record.did ≠ did) →
        resolveDID registry did = .error ("DID not found: " ++ did)) := by
  refine ⟨?_, ?_, ?_⟩
  · simp [resolveDID, publishDIDDocument]
  · simp [resolveDID, publishDIDDocument]
  · intro h
    have hnone : registry.reverse.find? (fun record => record.did == did) = none := by
      rw [List.find?_eq_none]
      intro record hmem
      simpa using h record (List.mem_reverse.mp hmem)
    unfold resolveDID
    rw [hnone]

/-- Witness for C6 at a concrete input: the empty registry resolves nothing. -/
theorem C6_resolution_last_write_wins_witness :
    resolveDID [] sampleDid = .error ("DID not found: " ++ sampleDid) :=
  (C6_resolution_last_write_wins [] sampleDid ⟨⟨1⟩⟩ ⟨⟨2⟩⟩ "t1" "t2").2.2
    (fun record hmem => absurd hmem (List.not_mem_nil record))

/-- C7: `verifySignature` returns the same boolean on two signed credentials
that differ only in the envelope's `credentialHash`: the embedded hash is
advisory (its mismatch is only logged in the source) and the decision
depends only on the signature over the recomputed canonical bytes. -/
theorem C7_verifySignature_ignores_embedded_hash (credential : SignedCredential)
    (publicKey : Ed25519PublicKey) (otherHash : String) :
    verifySignature
      { credential with
        verification := { credential.verification with credentialHash := otherHash } }
      publicKey
    = verifySignature credential publicKey := rfl

/-- C8 counterexample: on a format-valid credential whose DID is absent from
the registry, `signatureValid` is `false` yet the errors list carries no
entry for the signature axis — the claim's "exactly one entry per false
check" fails at this input. -/
theorem C8_counterexample :
    (verifyCredential [] (fun _ => 0) 0 sampleSigned).checks.signatureValid = false
    ∧ ((verifyCredential [] (fun _ => 0) 0 sampleSigned).errors.getD []).countP
        (fun e => e.check == "signatureValid") = 0
    ∧ (verifyCredential [] (fun _ => 0) 0 sampleSigned).errors
        = some [⟨"didResolvable", "DID_NOT_FOUND", "Could not resolve DID: " ++ sampleDid⟩] := by
  refine ⟨rfl, rfl, rfl⟩

/-- C9 counterexample: a builder state with both `source` and `evidence` set
— `source` set to the empty string — is rejected by `build`, because the
guard tests JS falsiness (`!this.source`) rather than presence. -/
theorem C9_build_counterexample :
    CredentialBuilder.build
      { id := "550e8400-e29b-41d4-a716-446655440000", status := "approved",
        source := some "", evidence := some sampleEvidence, expiresAt := none }
      "2026-02-13T10:00:00.000Z"
    = .error "CredentialBuilder: source and evidence are required" := rfl

/-- C9 amended: `build` returns the typed error when `source` or `evidence`
is unset — or when `source` was set to the falsy empty string — and returns
the assembled credential whenever both are set with a nonempty source. -/
theorem C9_build_amended (b : CredentialBuilder) (now : String) :
    ((b.source = none ∨ b.source = some "" ∨ b.evidence = none) →
      b.build now = .error "CredentialBuilder: source and evidence are required")
    ∧ (∀ src ev, b.source = some src → src ≠ "" → b.evidence = some ev →
        b.build now = .ok
          { schema_version := "1.0"
            did := serviceVerifiedDid b.id
            id := b.id
            status := b.status
            source := src
            created_at := now
            updated_at := now
            expires_at := match b.expiresAt with
              | some e => if e != "" then some e else none
              | none => none
            evidence := some ev }) := by
  constructor
  · intro h
    unfold CredentialBuilder.build
    rcases h with h | h | h <;> simp [sourceTruthy, h]
  · intro src ev hs hne hev
    unfold CredentialBuilder.build
    simp [sourceTruthy, hs, hev, hne]

/-- Witness for C9 at a concrete input: a fully set builder with nonempty
source builds the credential. -/
theorem C9_build_amended_witness :
    CredentialBuilder.build
      { id := "550e8400-e29b-41d4-a716-446655440000", status := "approved",
        source := some "servicepath.compliance.iso27001",
        evidence := some sampleEvidence, expiresAt := none }
      "2026-02-13T10:00:00.000Z"
    = .ok { schema_version := "1.0"
            did := sampleDid
            id := "550e8400-e29b-41d4-a716-446655440000"
            status := "approved"
            source := "servicepath.compliance.iso27001"
            created_at := "2026-02-13T10:00:00.000Z"
            updated_at := "2026-02-13T10:00:00.000Z"
            expires_at := none
            evidence := some sampleEvidence } :=
  (C9_build_amended
    { id := "550e8400-e29b-41d4-a716-446655440000", status := "approved",
      source := some "servicepath.compliance.iso27001",
      evidence := some sampleEvidence, expiresAt := none }
    "2026-02-13T10:00:00.000Z").2
    "servicepath.compliance.iso27001" sampleEvidence rfl (by decide) rfl

/-! ## DID parsing lemmas (towards C10) -/

/-- The `dropWhile` skips a block of characters that all satisfy the predicate. -/
theorem dropWhile_append_all {p : Char → Bool} :
    ∀ {l m : List Char}, (∀ c ∈ l, p c = true) →
      List.dropWhile p (l ++ m) = List.dropWhile p m := by
  intro l
  induction l with
  | nil => intro m _; rfl
  | cons c cs ih =>
    intro m h
    have hc : p c = true := h c (List.mem_cons_self c cs)
    simp only [List.cons_append, List.dropWhile_cons, hc, if_true]
    exact ih fun x hx => h x (List.mem_cons_of_mem c hx)

/-- Surrounding whitespace is trimmed from around a block whose first and
last characters are not whitespace. -/
theorem trimChars_sandwich {ws1 ws2 core : List Char}
    (h1 : ∀ c ∈ ws1, jsWhitespaceChar c = true)
    (h2 : ∀ c ∈ ws2, jsWhitespaceChar c = true)
    (hhead : ∀ c cs, core = c :: cs → jsWhitespaceChar c = false)
    (hlast : ∀ c cs, core.reverse = c :: cs → jsWhitespaceChar c = false)
    (hne : core ≠ []) :
    trimChars (ws1 ++ core ++ ws2) = core := by
  obtain ⟨c, cs, rfl⟩ : ∃ c cs, core = c :: cs := by
    cases core with
    | nil => exact absurd rfl hne
    | cons c cs => exact ⟨c, cs, rfl⟩
  have hrev : ∃ c' cs', (c :: cs).reverse = c' :: cs' := by
    cases hr : (c :: cs).reverse with
    | nil => exact absurd (List.reverse_eq_nil_iff.mp hr) (by simp)
    | cons c' cs' => exact ⟨c', cs', rfl⟩
  obtain ⟨c', cs', hrev⟩ := hrev
  unfold trimChars
  rw [List.append_assoc, dropWhile_append_all h1]
  rw [List.cons_append, List.dropWhile_cons, hhead c cs rfl]
  simp only [Bool.false_eq_true, if_false]
  rw [← List.cons_append, List.reverse_append,
    dropWhile_append_all (fun x hx => h2 x (List.mem_reverse.mp hx))]
  rw [hrev, List.dropWhile_cons, hlast c' cs' hrev]
  simp only [Bool.false_eq_true, if_false]
  rw [← hrev, List.reverse_reverse]

/-- No hex digit is JS whitespace. -/
theorem hexDigit_not_ws {c : Char} (h : uuidHexDigit c = true) :
    jsWhitespaceChar c = false := by
  by_contra hw
  rw [Bool.not_eq_false] at hw
  unfold jsWhitespaceChar at hw
  have hmem := List.mem_of_elem_eq_true hw
  fin_cases hmem <;> revert h <;> decide

/-- No character the UUID grammar accepts (at any position) is JS
whitespace. -/
theorem uuidCharOk_not_ws {i : Nat} {c : Char} (h : uuidCharOk i c = true) :
    jsWhitespaceChar c = false := by
  unfold uuidCharOk at h
  split_ifs at h with h1 h2 h3
  · have hc : c = '-' := by simpa using h
    subst hc; decide
  · have hc : c = '4' := by simpa using h
    subst hc; decide
  · rcases (by simpa using h :
      ((((c = '8' ∨ c = '9') ∨ c = 'a') ∨ c = 'b') ∨ c = 'A') ∨ c = 'B') with
      ((((hc | hc) | hc) | hc) | hc) | hc <;> subst hc <;> decide
  · exact hexDigit_not_ws h

/-- Every character of a string the UUID regex accepts satisfies its
positional predicate, hence is not whitespace. -/
theorem uuidV4Test_chars_not_ws {u : String} (hu : uuidV4Test u = true) :
    ∀ c ∈ u.data, jsWhitespaceChar c = false := by
  intro c hc
  have hall : ∀ x ∈ u.data.enum, uuidCharOk x.1 x.2 = true := by
    have := (Bool.and_eq_true _ _).mp hu |>.2
    exact List.all_eq_true.mp this
  have hmem : ∃ x ∈ u.data.enum, x.2 = c := by
    have : c ∈ u.data.enum.map Prod.snd := by
      rw [List.enum_map_snd]; exact hc
    obtain ⟨x, hx, hxc⟩ := List.mem_map.mp this
    exact ⟨x, hx, hxc⟩
  obtain ⟨⟨i, c'⟩, hx, rfl⟩ := hmem
  exact uuidCharOk_not_ws (hall _ hx)

/-- C10: a string made of optional surrounding whitespace, the fixed
`did:tw:serviceverified:` method base and a UUID v4 in upper or lower (or
mixed) case hex parses successfully, is accepted by `isValidDid`, and the
`uuid` component returned by `parseDid` and `extractUuid` is the lowercased
UUID. -/
theorem C10_parseDid_accepts_and_lowercases (ws1 ws2 u : String)
    (h1 : ∀ c ∈ ws1.data, jsWhitespaceChar c = true)
    (h2 : ∀ c ∈ ws2.data, jsWhitespaceChar c = true)
    (hu : uuidV4Test u = true) :
    parseDid (ws1 ++ didMethodBase ++ u ++ ws2)
      = .ok ⟨"did", "tw", "serviceverified", asciiLowerStr u, didMethodBase ++ u⟩
    ∧ isValidDid (ws1 ++ didMethodBase ++ u ++ ws2) = true
    ∧ extractUuid (ws1 ++ didMethodBase ++ u ++ ws2) = .ok (asciiLowerStr u) := by
  have hlen : u.data.length = 36 := by
    have := (Bool.and_eq_true _ _).mp hu |>.1
    simpa using this
  have hudata : u.data ≠ [] := by
    intro h; rw [h] at hlen; simp at hlen
  have hbig : (ws1 ++ didMethodBase ++ u ++ ws2).data
      = ws1.data ++ (didMethodBase.data ++ u.data) ++ ws2.data := by
    simp [List.append_assoc]
  have hd : didMethodBase.data
      = 'd' :: ('i' :: ('d' :: (':' :: ('t' :: ('w' :: (':' :: ("serviceverified:".data))))))) := rfl
  have hhead : ∀ c cs, (didMethodBase.data ++ u.data) = c :: cs →
      jsWhitespaceChar c = false := by
    intro c cs h
    rw [hd] at h
    simp only [List.cons_append, List.cons.injEq] at h
    rw [← h.1]; decide
  have hlast : ∀ c cs, (didMethodBase.data ++ u.data).reverse = c :: cs →
      jsWhitespaceChar c = false := by
    intro c cs h
    rw [List.reverse_append] at h
    obtain ⟨c0, cs0, hrev⟩ : ∃ c0 cs0, u.data.reverse = c0 :: cs0 := by
      cases hr : u.data.reverse with
      | nil => exact absurd (List.reverse_eq_nil_iff.mp hr) hudata
      | cons c0 cs0 => exact ⟨c0, cs0, rfl⟩
    rw [hrev, List.cons_append, List.cons.injEq] at h
    have hc0 : c0 ∈ u.data := by
      rw [← List.mem_reverse, hrev]; exact List.mem_cons_self _ _
    rw [← h.1]
    exact uuidV4Test_chars_not_ws hu c0 hc0
  have hne : (didMethodBase.data ++ u.data) ≠ [] := by
    rw [hd]; simp
  have htrim : jsTrim (ws1 ++ didMethodBase ++ u ++ ws2)
      = ⟨didMethodBase.data ++ u.data⟩ := by
    unfold jsTrim
    rw [hbig, trimChars_sandwich h1 h2 hhead hlast hne]
  have hpre : didMethodBase.data.isPrefixOf (didMethodBase.data ++ u.data) = true :=
    List.isPrefixOf_iff_prefix.mpr ⟨u.data, rfl⟩
  have hdrop : (didMethodBase.data ++ u.data).drop didMethodBase.data.length = u.data :=
    List.drop_left _ _
  have hok : parseDid (ws1 ++ didMethodBase ++ u ++ ws2)
      = .ok ⟨"did", "tw", "serviceverified", asciiLowerStr u, didMethodBase ++ u⟩ := by
    unfold parseDid
    rw [htrim]
    rw [if_neg (by simpa using hne)]
    rw [if_neg (by simp [hpre])]
    simp only [hdrop]
    rw [if_neg (by simpa using hu)]
    have hraw : (⟨didMethodBase.data ++ u.data⟩ : String) = didMethodBase ++ u := rfl
    rw [hraw]
  refine ⟨hok, ?_, ?_⟩
  · unfold isValidDid
    rw [htrim, if_neg (by simpa using hne), hok]
  · unfold extractUuid
    rw [hok]; rfl

/-- Witness for C10 at a concrete input: whitespace around an uppercase
UUID parses to the lowercased uuid component. -/
theorem C10_parseDid_accepts_and_lowercases_witness :
    parseDid "  did:tw:serviceverified:550E8400-E29B-41D4-A716-446655440000 "
      = .ok ⟨"did", "tw", "serviceverified", "550e8400-e29b-41d4-a716-446655440000",
             "did:tw:serviceverified:550E8400-E29B-41D4-A716-446655440000"⟩ := by
  have h := (C10_parseDid_accepts_and_lowercases "  " " "
    "550E8400-E29B-41D4-A716-446655440000"
    (by decide) (by decide) (by decide)).1
  exact h

/-! ## Canonicalization is invariant under key reordering (towards C2) -/

/-- The `sortKeysDeepList` is the elementwise map of `sortKeysDeep`. -/
theorem sortKeysDeepList_eq_map (xs : List Json) :
    sortKeysDeepList xs = xs.map sortKeysDeep := by
  induction xs with
  | nil => rfl
  | cons x xs ih => rw [sortKeysDeepList, ih, List.map_cons]

/-- The `sortKeysDeepEntries` is the valuewise map of `sortKeysDeep`. -/
theorem sortKeysDeepEntries_eq_map (kvs : List (String × Json)) :
    sortKeysDeepEntries kvs = kvs.map fun kv => (kv.1, sortKeysDeep kv.2) := by
  induction kvs with
  | nil => rfl
  | cons kv kvs ih =>
    obtain ⟨k, v⟩ := kv
    rw [sortKeysDeepEntries, ih, List.map_cons]

/-- The `sortKeysDeepEntries` leaves the keys unchanged. -/
theorem sortKeysDeepEntries_keys (kvs : List (String × Json)) :
    (sortKeysDeepEntries kvs).map Prod.fst = kvs.map Prod.fst := by
  rw [sortKeysDeepEntries_eq_map, List.map_map]
  rfl

/-- Membership form of `NodupKeysList`. -/
theorem nodupKeysList_iff {xs : List Json} :
    NodupKeysList xs ↔ ∀ x ∈ xs, NodupKeys x := by
  induction xs with
  | nil => simp [NodupKeysList]
  | cons x xs ih => rw [NodupKeysList]; simp [ih]

/-- Membership form of `NodupKeysEntries`. -/
theorem nodupKeysEntries_iff {kvs : List (String × Json)} :
    NodupKeysEntries kvs ↔ ∀ kv ∈ kvs, NodupKeys kv.2 := by
  induction kvs with
  | nil => simp [NodupKeysEntries]
  | cons kv kvs ih => rw [NodupKeysEntries]; simp [ih]

/-- A key-sorted entry list with duplicate-free keys is strictly sorted. -/
theorem sorted_entryLE_strict {l : List (String × Json)}
    (hs : l.Sorted entryLE) (hnd : (l.map Prod.fst).Nodup) :
    l.Sorted entryLT := by
  have hpw : l.Pairwise fun a b => a.1 ≠ b.1 := List.pairwise_map.mp hnd
  exact (hs.and hpw).imp fun h => lt_of_le_of_ne h.1 h.2

/-- Two permuted entry lists with duplicate-free keys have the same
key-sorted form: `.sort()` forgets the incoming order. -/
theorem insertionSort_eq_of_perm {l1 l2 : List (String × Json)}
    (hp : l1.Perm l2) (hnd : (l1.map Prod.fst).Nodup) :
    List.insertionSort entryLE l1 = List.insertionSort entryLE l2 := by
  have p1 := List.perm_insertionSort entryLE l1
  have p2 := List.perm_insertionSort entryLE l2
  have hp' : (List.insertionSort entryLE l1).Perm (List.insertionSort entryLE l2) :=
    p1.trans (hp.trans p2.symm)
  have hnd1 : ((List.insertionSort entryLE l1).map Prod.fst).Nodup :=
    ((p1.map Prod.fst).nodup_iff).mpr hnd
  have hnd2 : ((List.insertionSort entryLE l2).map Prod.fst).Nodup :=
    ((p2.map Prod.fst).nodup_iff).mpr ((hp.map Prod.fst).nodup_iff.mp hnd)
  exact List.eq_of_perm_of_sorted hp'
    (sorted_entryLE_strict (List.sorted_insertionSort entryLE l1) hnd1)
    (sorted_entryLE_strict (List.sorted_insertionSort entryLE l2) hnd2)

/-- One key-reorder step preserves duplicate-freeness of keys. -/
theorem keyStep_nodup {a b : Json} (st : KeyStep a b) (h : NodupKeys a) : NodupKeys b := by
  induction st with
  | @permObj kvs kvs' hp =>
    rw [NodupKeys] at h ⊢
    refine ⟨(hp.map Prod.fst).nodup h.1, ?_⟩
    rw [nodupKeysEntries_iff] at h ⊢
    exact fun kv hkv => h.2 kv (hp.symm.subset hkv)
  | @arrHere x y l r st ih =>
    rw [NodupKeys] at h ⊢
    rw [nodupKeysList_iff] at h ⊢
    intro z hz
    rcases List.mem_append.mp hz with hz | hz
    · exact h z (List.mem_append.mpr (Or.inl hz))
    · rcases List.mem_cons.mp hz with hz | hz
      · exact hz ▸ ih (h x (List.mem_append.mpr (Or.inr (List.mem_cons_self x r))))
      · exact h z (List.mem_append.mpr (Or.inr (List.mem_cons_of_mem x hz)))
  | @objHere v v' l r k st ih =>
    rw [NodupKeys] at h ⊢
    constructor
    · have hkeys : (l ++ (k, v') :: r).map Prod.fst = (l ++ (k, v) :: r).map Prod.fst := by
        simp
      rw [hkeys]; exact h.1
    · have h2 := nodupKeysEntries_iff.mp h.2
      rw [nodupKeysEntries_iff]
      intro kv hkv
      rcases List.mem_append.mp hkv with hkv | hkv
      · exact h2 kv (List.mem_append.mpr (Or.inl hkv))
      · rcases List.mem_cons.mp hkv with hkv | hkv
        · exact hkv ▸ ih (h2 (k, v) (List.mem_append.mpr (Or.inr (List.mem_cons_self _ r))))
        · exact h2 kv (List.mem_append.mpr (Or.inr (List.mem_cons_of_mem _ hkv)))

/-- One key-reorder step does not change the key-sorted form. -/
theorem keyStep_sort_eq {a b : Json} (st : KeyStep a b) (h : NodupKeys a) :
    sortKeysDeep a = sortKeysDeep b := by
  induction st with
  | @permObj kvs kvs' hp =>
    rw [NodupKeys] at h
    have hperm : (sortKeysDeepEntries kvs).Perm (sortKeysDeepEntries kvs') := by
      rw [sortKeysDeepEntries_eq_map, sortKeysDeepEntries_eq_map]
      exact hp.map _
    have hnd : ((sortKeysDeepEntries kvs).map Prod.fst).Nodup := by
      rw [sortKeysDeepEntries_keys]; exact h.1
    rw [sortKeysDeep, sortKeysDeep, insertionSort_eq_of_perm hperm hnd]
  | @arrHere x y l r st ih =>
    rw [NodupKeys, nodupKeysList_iff] at h
    have hx : sortKeysDeep x = sortKeysDeep y :=
      ih (h x (List.mem_append.mpr (Or.inr (List.mem_cons_self x r))))
    rw [sortKeysDeep, sortKeysDeep, sortKeysDeepList_eq_map, sortKeysDeepList_eq_map]
    simp [hx]
  | @objHere v v' l r k st ih =>
    rw [NodupKeys] at h
    have h2 := nodupKeysEntries_iff.mp h.2
    have hv : sortKeysDeep v = sortKeysDeep v' :=
      ih (h2 (k, v) (List.mem_append.mpr (Or.inr (List.mem_cons_self _ r))))
    rw [sortKeysDeep, sortKeysDeep, sortKeysDeepEntries_eq_map, sortKeysDeepEntries_eq_map]
    simp [hv]

/-- Duplicate-freeness of keys is preserved along any chain of key-reorder
steps. -/
theorem jeqv_nodup {a b : Json} (h : JEqv a b) (hn : NodupKeys a) : NodupKeys b := by
  induction h with
  | refl => exact hn
  | tail _ st ih => exact keyStep_nodup st ih

/-- Logically equal JSON values with duplicate-free keys have the same
key-sorted form. -/
theorem jeqv_sort_eq {a b : Json} (h : JEqv a b) (hn : NodupKeys a) :
    sortKeysDeep a = sortKeysDeep b := by
  induction h with
  | refl => rfl
  | tail hab st ih => exact ih.trans (keyStep_sort_eq st (jeqv_nodup hab hn))

/-- C2: canonicalization maps two logically equal credentials — equal field
values at every nesting level, mapping key order free — to byte-identical
output, and repeated canonicalization of the same input is byte-identical
(the embedding is a pure function, so determinism is definitional). -/
theorem C2_canonicalize_key_order_free_and_deterministic (j1 j2 : Json)
    (hnd : NodupKeys j1) (heqv : JEqv j1 j2) :
    canonicalizeJson j1 = canonicalizeJson j2
    ∧ canonicalizeJson j1 = canonicalizeJson j1 := by
  refine ⟨?_, rfl⟩
  unfold canonicalizeJson jsonStringify
  rw [jeqv_sort_eq heqv hnd]

/-- Witness for C2 at a concrete input: the same two-field object with its
keys written in either order canonicalizes to the same bytes. -/
theorem C2_canonicalize_key_order_free_and_deterministic_witness :
    canonicalizeJson (.obj [("b", .num "2"), ("a", .str "x")])
      = canonicalizeJson (.obj [("a", .str "x"), ("b", .num "2")]) :=
  (C2_canonicalize_key_order_free_and_deterministic
    (Json.obj [("b", Json.num "2"), ("a", Json.str "x")])
    (Json.obj [("a", Json.str "x"), ("b", Json.num "2")])
    (by rw [NodupKeys]; refine ⟨by decide, ?_⟩
        rw [NodupKeysEntries, NodupKeysEntries, NodupKeysEntries]
        exact ⟨trivial, trivial, trivial⟩)
    (Relation.ReflTransGen.single
      (KeyStep.permObj
        (List.Perm.swap ("a", Json.str "x") ("b", Json.num "2") [])))).1

/-! ## Key sorting realizes logical equality (towards C4) -/

/-- Rewriting one array element by a chain of key-reorder steps is itself
such a chain. -/
theorem jeqv_arr_elem {x y : Json} (l r : List Json) (h : JEqv x y) :
    JEqv (.arr (l ++ x :: r)) (.arr (l ++ y :: r)) :=
  Relation.ReflTransGen.lift (fun t => Json.arr (l ++ t :: r))
    (fun _ _ st => KeyStep.arrHere l r st) h

/-- Rewriting one object entry value by a chain of key-reorder steps is
itself such a chain. -/
theorem jeqv_obj_entry {v v' : Json} (l r : List (String × Json)) (k : String)
    (h : JEqv v v') :
    JEqv (.obj (l ++ (k, v) :: r)) (.obj (l ++ (k, v') :: r)) :=
  Relation.ReflTransGen.lift (fun t => Json.obj (l ++ (k, t) :: r))
    (fun _ _ st => KeyStep.objHere l r k st) h

/-- A chain between two arrays lifts under a common first element. -/
theorem jeqv_arr_cons {x : Json} {xs ys : List Json}
    (h : JEqv (.arr xs) (.arr ys)) : JEqv (.arr (x :: xs)) (.arr (x :: ys)) := by
  have hf : ∀ a b, KeyStep a b →
      KeyStep ((fun j => match j with | Json.arr t => Json.arr (x :: t) | j => j) a)
        ((fun j => match j with | Json.arr t => Json.arr (x :: t) | j => j) b) := by
    intro a b st
    cases st with
    | permObj hp => exact KeyStep.permObj hp
    | arrHere l r st => exact KeyStep.arrHere (x :: l) r st
    | objHere l r k st => exact KeyStep.objHere l r k st
  exact Relation.ReflTransGen.lift
    (fun j => match j with | Json.arr t => Json.arr (x :: t) | j => j) hf h

/-- A chain between two objects lifts under a common first entry. -/
theorem jeqv_obj_cons {e : String × Json} {kvs lvs : List (String × Json)}
    (h : JEqv (.obj kvs) (.obj lvs)) : JEqv (.obj (e :: kvs)) (.obj (e :: lvs)) := by
  have hf : ∀ a b, KeyStep a b →
      KeyStep ((fun j => match j with | Json.obj t => Json.obj (e :: t) | j => j) a)
        ((fun j => match j with | Json.obj t => Json.obj (e :: t) | j => j) b) := by
    intro a b st
    cases st with
    | permObj hp => exact KeyStep.permObj (hp.cons e)
    | arrHere l r st => exact KeyStep.arrHere l r st
    | objHere l r k st => exact KeyStep.objHere (e :: l) r k st
  exact Relation.ReflTransGen.lift
    (fun j => match j with | Json.obj t => Json.obj (e :: t) | j => j) hf h

/-- Elementwise chains between arrays assemble into one chain. -/
theorem jeqv_arr_pointwise {xs ys : List Json} (h : List.Forall₂ JEqv xs ys) :
    JEqv (.arr xs) (.arr ys) := by
  induction h with
  | nil => exact Relation.ReflTransGen.refl
  | @cons x y xs ys hxy _ ih =>
    exact Relation.ReflTransGen.trans (jeqv_arr_elem [] xs hxy) (jeqv_arr_cons ih)

/-- Entrywise chains between objects (keys fixed) assemble into one chain. -/
theorem jeqv_obj_pointwise {kvs lvs : List (String × Json)}
    (h : List.Forall₂ (fun a b => a.1 = b.1 ∧ JEqv a.2 b.2) kvs lvs) :
    JEqv (.obj kvs) (.obj lvs) := by
  induction h with
  | nil => exact Relation.ReflTransGen.refl
  | @cons a b kvs lvs hab _ ih =>
    obtain ⟨k, v⟩ := a
    obtain ⟨k', v'⟩ := b
    obtain ⟨hk, hv⟩ := hab
    cases hk
    exact Relation.ReflTransGen.trans (jeqv_obj_entry [] kvs k hv) (jeqv_obj_cons ih)

mutual

/-- Every JSON value is logically equal to its key-sorted form. -/
theorem jeqv_sortKeysDeep : ∀ j : Json, JEqv j (sortKeysDeep j)
  | .null => Relation.ReflTransGen.refl
  | .bool _ => Relation.ReflTransGen.refl
  | .num _ => Relation.ReflTransGen.refl
  | .str _ => Relation.ReflTransGen.refl
  | .arr xs => by
    rw [sortKeysDeep]
    exact jeqv_arr_pointwise (jeqv_sortKeysDeepList xs)
  | .obj kvs => by
    rw [sortKeysDeep]
    exact Relation.ReflTransGen.trans
      (jeqv_obj_pointwise (jeqv_sortKeysDeepEntries kvs))
      (Relation.ReflTransGen.single
        (KeyStep.permObj (List.perm_insertionSort entryLE (sortKeysDeepEntries kvs)).symm))

/-- Elementwise version of `jeqv_sortKeysDeep`. -/
theorem jeqv_sortKeysDeepList : ∀ xs : List Json, List.Forall₂ JEqv xs (sortKeysDeepList xs)
  | [] => by rw [sortKeysDeepList]; exact List.Forall₂.nil
  | x :: xs => by
    rw [sortKeysDeepList]
    exact List.Forall₂.cons (jeqv_sortKeysDeep x) (jeqv_sortKeysDeepList xs)

/-- Entrywise version of `jeqv_sortKeysDeep`. -/
theorem jeqv_sortKeysDeepEntries :
    ∀ kvs : List (String × Json),
      List.Forall₂ (fun a b => a.1 = b.1 ∧ JEqv a.2 b.2) kvs (sortKeysDeepEntries kvs)
  | [] => by rw [sortKeysDeepEntries]; exact List.Forall₂.nil
  | (k, v) :: kvs => by
    rw [sortKeysDeepEntries]
    exact List.Forall₂.cons ⟨rfl, jeqv_sortKeysDeep v⟩ (jeqv_sortKeysDeepEntries kvs)

end

/-- Key-reorder steps are symmetric. -/
theorem keyStep_symm {a b : Json} (st : KeyStep a b) : KeyStep b a := by
  induction st with
  | permObj hp => exact KeyStep.permObj hp.symm
  | arrHere l r _ ih => exact KeyStep.arrHere l r ih
  | objHere l r k _ ih => exact KeyStep.objHere l r k ih

/-- Logical equality of JSON values is symmetric. -/
theorem jeqv_symm {a b : Json} (h : JEqv a b) : JEqv b a := by
  induction h with
  | refl => exact Relation.ReflTransGen.refl
  | tail _ st ih =>
    exact Relation.ReflTransGen.trans
      (Relation.ReflTransGen.single (keyStep_symm st)) ih

/-! ## The serializer is uniquely decodable (towards C4) -/

/-- The `escapeChar` never produces the empty list. -/
theorem escapeChar_ne_nil (c : Char) : escapeChar c ≠ [] := by
  unfold escapeChar
  split_ifs <;> simp

/-- The first character `escapeChar` emits is never an unescaped quote. -/
theorem escapeChar_head_ne_quote {c x : Char} {t : List Char}
    (h : escapeChar c = x :: t) : x ≠ '"' := by
  unfold escapeChar at h
  split_ifs at h with h1 h2 h3 h4 h5 h6 h7 h8 <;>
    simp only [List.cons.injEq] at h <;>
    first
      | (rw [← h.1]; decide)
      | (rw [← h.1]; exact h1)

/-- The function `nibbleHexChar` is injective below 16. -/
theorem nibbleHexChar_inj : ∀ m < 16, ∀ n < 16, nibbleHexChar m = nibbleHexChar n → m = n := by
  decide

/-- The pairing of characters with their two-character escape letters. -/
theorem escPair_unique {c c' d : Char}
    (h1 : (c = '"' ∧ d = '"') ∨ (c = '\\' ∧ d = '\\') ∨ (c = '\x08' ∧ d = 'b')
        ∨ (c = '\x0c' ∧ d = 'f') ∨ (c = '\n' ∧ d = 'n') ∨ (c = '\r' ∧ d = 'r')
        ∨ (c = '\t' ∧ d = 't'))
    (h2 : (c' = '"' ∧ d = '"') ∨ (c' = '\\' ∧ d = '\\') ∨ (c' = '\x08' ∧ d = 'b')
        ∨ (c' = '\x0c' ∧ d = 'f') ∨ (c' = '\n' ∧ d = 'n') ∨ (c' = '\r' ∧ d = 'r')
        ∨ (c' = '\t' ∧ d = 't')) : c = c' := by
  rcases h1 with h | h | h | h | h | h | h <;>
    rcases h2 with g | g | g | g | g | g | g <;>
    rw [h.1, g.1] <;>
    first
      | rfl
      | exact absurd (h.2.symm.trans g.2) (by decide)

/-- Case classification of `escapeChar`'s output: a literal character, a
two-character escape, or a six-character `\u00..` escape. -/
theorem escapeChar_cases (c : Char) :
    (escapeChar c = [c] ∧ ¬c = '\\' ∧ ¬c.toNat < 32)
    ∨ (∃ d, ((c = '"' ∧ d = '"') ∨ (c = '\\' ∧ d = '\\') ∨ (c = '\x08' ∧ d = 'b')
        ∨ (c = '\x0c' ∧ d = 'f') ∨ (c = '\n' ∧ d = 'n') ∨ (c = '\r' ∧ d = 'r')
        ∨ (c = '\t' ∧ d = 't')) ∧ escapeChar c = ['\\', d])
    ∨ (c.toNat < 32
        ∧ escapeChar c
          = '\\' :: 'u' :: '0' :: '0'
              :: [nibbleHexChar (c.toNat / 16), nibbleHexChar (c.toNat % 16)]) := by
  by_cases h1 : c = '"'
  · subst h1; exact Or.inr (Or.inl ⟨'"', Or.inl ⟨rfl, rfl⟩, by decide⟩)
  by_cases h2 : c = '\\'
  · subst h2; exact Or.inr (Or.inl ⟨'\\', Or.inr (Or.inl ⟨rfl, rfl⟩), by decide⟩)
  by_cases h3 : c = '\x08'
  · subst h3
    exact Or.inr (Or.inl ⟨'b', Or.inr (Or.inr (Or.inl ⟨rfl, rfl⟩)), by decide⟩)
  by_cases h4 : c = '\x0c'
  · subst h4
    exact Or.inr (Or.inl ⟨'f', Or.inr (Or.inr (Or.inr (Or.inl ⟨rfl, rfl⟩))), by decide⟩)
  by_cases h5 : c = '\n'
  · subst h5
    exact Or.inr (Or.inl ⟨'n',
      Or.inr (Or.inr (Or.inr (Or.inr (Or.inl ⟨rfl, rfl⟩)))), by decide⟩)
  by_cases h6 : c = '\r'
  · subst h6
    exact Or.inr (Or.inl ⟨'r',
      Or.inr (Or.inr (Or.inr (Or.inr (Or.inr (Or.inl ⟨rfl, rfl⟩))))), by decide⟩)
  by_cases h7 : c = '\t'
  · subst h7
    exact Or.inr (Or.inl ⟨'t',
      Or.inr (Or.inr (Or.inr (Or.inr (Or.inr (Or.inr ⟨rfl, rfl⟩))))), by decide⟩)
  by_cases h8 : c.toNat < 32
  · refine Or.inr (Or.inr ⟨h8, ?_⟩)
    unfold escapeChar
    rw [if_neg h1, if_neg h2, if_neg h3, if_neg h4, if_neg h5, if_neg h6, if_neg h7,
      if_pos h8]
  · refine Or.inl ⟨?_, h2, h8⟩
    unfold escapeChar
    rw [if_neg h1, if_neg h2, if_neg h3, if_neg h4, if_neg h5, if_neg h6, if_neg h7,
      if_neg h8]

/-- The `escapeChar` is a prefix code: equal streams starting with two escape
chunks force the escaped characters and the remainders to agree. -/
theorem escapeChar_prefix_code {c1 c2 : Char} {r1 r2 : List Char}
    (h : escapeChar c1 ++ r1 = escapeChar c2 ++ r2) : c1 = c2 ∧ r1 = r2 := by
  have hrecover : ∀ (c : Char),
      Char.ofNat (16 * (c.toNat / 16) + c.toNat % 16) = c := by
    intro c
    rw [Nat.div_add_mod]
    exact Char.ofNat_toNat c
  rcases escapeChar_cases c1 with ⟨e1, hl1, hn1⟩ | ⟨d1, hp1, e1⟩ | ⟨hlt1, e1⟩ <;>
    rcases escapeChar_cases c2 with ⟨e2, hl2, hn2⟩ | ⟨d2, hp2, e2⟩ | ⟨hlt2, e2⟩ <;>
    rw [e1, e2] at h <;> simp only [List.cons_append, List.nil_append,
      List.cons.injEq] at h
  · exact ⟨h.1, h.2⟩
  · exact absurd h.1 (by rcases hp2 with ⟨_, rfl⟩ | ⟨_, rfl⟩ | ⟨_, rfl⟩ | ⟨_, rfl⟩
      | ⟨_, rfl⟩ | ⟨_, rfl⟩ | ⟨_, rfl⟩ <;> exact hl1)
  · exact absurd h.1 hl1
  · exact absurd h.1.symm (by rcases hp1 with ⟨_, rfl⟩ | ⟨_, rfl⟩ | ⟨_, rfl⟩ | ⟨_, rfl⟩
      | ⟨_, rfl⟩ | ⟨_, rfl⟩ | ⟨_, rfl⟩ <;> exact hl2)
  · obtain ⟨hd, hr⟩ := h.2
    subst hd
    exact ⟨escPair_unique hp1 hp2, hr⟩
  · obtain ⟨hd, -⟩ := h.2
    exact absurd hd (by rcases hp1 with ⟨_, rfl⟩ | ⟨_, rfl⟩ | ⟨_, rfl⟩ | ⟨_, rfl⟩
      | ⟨_, rfl⟩ | ⟨_, rfl⟩ | ⟨_, rfl⟩ <;> decide)
  · exact absurd h.1.symm hl2
  · obtain ⟨hd, -⟩ := h.2
    exact absurd hd.symm (by rcases hp2 with ⟨_, rfl⟩ | ⟨_, rfl⟩ | ⟨_, rfl⟩ | ⟨_, rfl⟩
      | ⟨_, rfl⟩ | ⟨_, rfl⟩ | ⟨_, rfl⟩ <;> decide)
  · obtain ⟨-, -, -, -, ha, hb, hr⟩ := h
    refine ⟨?_, hr⟩
    have e1' := nibbleHexChar_inj _ (by omega) _ (by omega) ha
    have e2' := nibbleHexChar_inj _ (by omega) _ (by omega) hb
    rw [← hrecover c1, ← hrecover c2, e1', e2']

/-- Escaped string bodies are uniquely decodable up to the first unescaped
closing quote. -/
theorem escChars_unique :
    ∀ (s1 : List Char) {s2 r1 r2 : List Char},
      escChars s1 ++ ('"' :: r1) = escChars s2 ++ ('"' :: r2) →
      s1 = s2 ∧ r1 = r2 := by
  intro s1
  induction s1 with
  | nil =>
    intro s2 r1 r2 h
    cases s2 with
    | nil =>
      simp only [escChars, List.nil_append, List.cons.injEq] at h
      exact ⟨rfl, h.2⟩
    | cons c s2' =>
      obtain ⟨x, t, hx⟩ : ∃ x t, escapeChar c = x :: t := by
        cases hec : escapeChar c with
        | nil => exact absurd hec (escapeChar_ne_nil c)
        | cons x t => exact ⟨x, t, rfl⟩
      simp only [escChars, List.nil_append] at h
      rw [hx] at h
      simp only [List.cons_append, List.cons.injEq] at h
      exact absurd h.1 (Ne.symm (escapeChar_head_ne_quote hx))
  | cons c s1' ih =>
    intro s2 r1 r2 h
    cases s2 with
    | nil =>
      obtain ⟨x, t, hx⟩ : ∃ x t, escapeChar c = x :: t := by
        cases hec : escapeChar c with
        | nil => exact absurd hec (escapeChar_ne_nil c)
        | cons x t => exact ⟨x, t, rfl⟩
      simp only [escChars, List.nil_append] at h
      rw [hx] at h
      simp only [List.cons_append, List.cons.injEq] at h
      exact absurd h.1 (escapeChar_head_ne_quote hx)
    | cons c2 s2' =>
      simp only [escChars, List.append_assoc] at h
      obtain ⟨hc, h2⟩ := escapeChar_prefix_code h
      obtain ⟨hs, hr⟩ := ih h2
      exact ⟨by rw [hc, hs], hr⟩

/-- Serialized JSON string literals are uniquely decodable. -/
theorem serStrChars_unique {a b : String} {r1 r2 : List Char}
    (h : serStrChars a ++ r1 = serStrChars b ++ r2) : a = b ∧ r1 = r2 := by
  unfold serStrChars at h
  simp only [List.cons_append, List.append_assoc, List.singleton_append,
    List.cons.injEq, true_and] at h
  obtain ⟨hd, hr⟩ := escChars_unique a.data h
  refine ⟨?_, hr⟩
  cases a; cases b
  exact congrArg String.mk (by simpa using hd)

/-- A block of characters from a class `p`, followed by a non-`p` head, is
uniquely decodable (maximal munch). -/
theorem classBlock_unique {p : Char → Bool} :
    ∀ (a1 : List Char) {a2 t1 t2 : List Char},
      (∀ c ∈ a1, p c = true) → (∀ c ∈ a2, p c = true) →
      noClassHead p t1 → noClassHead p t2 →
      a1 ++ t1 = a2 ++ t2 → a1 = a2 ∧ t1 = t2 := by
  intro a1
  induction a1 with
  | nil =>
    intro a2 t1 t2 _ h2 g1 _ h
    cases a2 with
    | nil => exact ⟨rfl, h⟩
    | cons c a2' =>
      rw [List.nil_append, List.cons_append] at h
      rw [h] at g1
      rw [noClassHead] at g1
      exact absurd (h2 c (List.mem_cons_self c a2')) (by rw [g1]; exact Bool.false_ne_true)
  | cons c a1' ih =>
    intro a2 t1 t2 h1 h2 g1 g2 h
    cases a2 with
    | nil =>
      rw [List.nil_append, List.cons_append] at h
      rw [← h] at g2
      rw [noClassHead] at g2
      exact absurd (h1 c (List.mem_cons_self c a1'))
        (by rw [g2]; exact Bool.false_ne_true)
    | cons c2 a2' =>
      simp only [List.cons_append, List.cons.injEq] at h
      obtain ⟨hc, ht⟩ := h
      obtain ⟨ha, hr⟩ := ih (fun x hx => h1 x (List.mem_cons_of_mem c hx))
        (fun x hx => h2 x (List.mem_cons_of_mem c2 hx)) g1 g2 ht
      exact ⟨by rw [hc, ha], hr⟩

/-- Membership form of `NumsWfList`. -/
theorem numsWfList_iff {xs : List Json} :
    NumsWfList xs ↔ ∀ x ∈ xs, NumsWf x := by
  induction xs with
  | nil => simp [NumsWfList]
  | cons x xs ih => rw [NumsWfList]; simp [ih]

/-- Membership form of `NumsWfEntries`. -/
theorem numsWfEntries_iff {kvs : List (String × Json)} :
    NumsWfEntries kvs ↔ ∀ kv ∈ kvs, NumsWf kv.2 := by
  induction kvs with
  | nil => simp [NumsWfEntries]
  | cons kv kvs ih => rw [NumsWfEntries]; simp [ih]

/-- A numeric-token head character reveals constructor tag 2. -/
theorem headKind_of_numTokHead {c : Char} (h : numTokHead c = true) : headKind c = 2 := by
  have hn : ¬c = 'n' := by intro hc; subst hc; exact absurd h (by decide)
  have htf : ¬(c = 't' ∨ c = 'f') := by
    rintro (hc | hc) <;> subst hc <;> exact absurd h (by decide)
  unfold headKind
  rw [if_neg hn, if_neg htf, if_pos h]

/-- The first serialized character reveals the constructor of a wellformed
JSON value. -/
theorem serJ_head {j : Json} (hw : NumsWf j) :
    ∃ c t, serJ j = c :: t ∧ headKind c = kindOf j := by
  cases j with
  | null => exact ⟨'n', ['u', 'l', 'l'], by simp [serJ], by decide⟩
  | bool b =>
    cases b with
    | true => exact ⟨'t', ['r', 'u', 'e'], by simp [serJ], by decide⟩
    | false => exact ⟨'f', ['a', 'l', 's', 'e'], by simp [serJ], by decide⟩
  | num tok =>
    rw [NumsWf] at hw
    obtain ⟨hne, -, hhead⟩ := hw
    cases htok : tok.data with
    | nil => exact absurd htok hne
    | cons c ts =>
      exact ⟨c, ts, by rw [serJ, htok], by
        rw [headKind_of_numTokHead (hhead c ts htok), kindOf]⟩
  | str s =>
    exact ⟨'"', escChars s.data ++ ['"'], by rw [serJ, serStrChars],
      by rw [kindOf]; decide⟩
  | arr xs =>
    exact ⟨'[', serElems xs ++ [']'], by rw [serJ], by rw [kindOf]; decide⟩
  | obj kvs =>
    exact ⟨'\x7b', serEntries kvs ++ ['\x7d'], by rw [serJ], by rw [kindOf]; decide⟩

/-- The continuation after an array element starts with a comma or the
closing bracket — never a numeric-token character. -/
theorem noClassHead_elemsTail (xs : List Json) (t : List Char) :
    noClassHead numTokChar (serElemsTail xs ++ ']' :: t) := by
  cases xs with
  | nil => rw [serElemsTail, List.nil_append, noClassHead]; decide
  | cons x xs =>
    rw [serElemsTail, List.cons_append, noClassHead]; decide

/-- The continuation after an object entry starts with a comma or the
closing brace — never a numeric-token character. -/
theorem noClassHead_entriesTail (kvs : List (String × Json)) (t : List Char) :
    noClassHead numTokChar (serEntriesTail kvs ++ '\x7d' :: t) := by
  cases kvs with
  | nil => rw [serEntriesTail, List.nil_append, noClassHead]; decide
  | cons kv kvs =>
    rw [serEntriesTail, List.cons_append, noClassHead]; decide

/-- The whitespace-free serializer is uniquely decodable: two serialized
wellformed values followed by delimiter-headed continuations agree exactly
when the values and the continuations agree.  Stated for all five mutually
recursive serializer components, by strong induction on size. -/
theorem ser_unique : ∀ n : Nat,
    (∀ (j1 j2 : Json) (t1 t2 : List Char), sizeOf j1 ≤ n → NumsWf j1 → NumsWf j2 →
      noClassHead numTokChar t1 → noClassHead numTokChar t2 →
      serJ j1 ++ t1 = serJ j2 ++ t2 → j1 = j2 ∧ t1 = t2)
    ∧ (∀ (xs ys : List Json) (t1 t2 : List Char), sizeOf xs ≤ n →
      NumsWfList xs → NumsWfList ys →
      serElems xs ++ (']' :: t1) = serElems ys ++ (']' :: t2) → xs = ys ∧ t1 = t2)
    ∧ (∀ (xs ys : List Json) (t1 t2 : List Char), sizeOf xs ≤ n →
      NumsWfList xs → NumsWfList ys →
      serElemsTail xs ++ (']' :: t1) = serElemsTail ys ++ (']' :: t2) → xs = ys ∧ t1 = t2)
    ∧ (∀ (kvs lvs : List (String × Json)) (t1 t2 : List Char), sizeOf kvs ≤ n →
      NumsWfEntries kvs → NumsWfEntries lvs →
      serEntries kvs ++ ('\x7d' :: t1) = serEntries lvs ++ ('\x7d' :: t2) →
      kvs = lvs ∧ t1 = t2)
    ∧ (∀ (kvs lvs : List (String × Json)) (t1 t2 : List Char), sizeOf kvs ≤ n →
      NumsWfEntries kvs → NumsWfEntries lvs →
      serEntriesTail kvs ++ ('\x7d' :: t1) = serEntriesTail lvs ++ ('\x7d' :: t2) →
      kvs = lvs ∧ t1 = t2) := by
  intro n
  induction n using Nat.strong_induction_on with
  | _ n ih =>
  refine ⟨?_, ?_, ?_, ?_, ?_⟩
  -- values
  · intro j1 j2 t1 t2 hsz hw1 hw2 hg1 hg2 h
    obtain ⟨c1, u1, he1, hk1⟩ := serJ_head hw1
    obtain ⟨c2, u2, he2, hk2⟩ := serJ_head hw2
    have hkind : kindOf j1 = kindOf j2 := by
      have hc : c1 = c2 := by
        rw [he1, he2] at h
        simp only [List.cons_append, List.cons.injEq] at h
        exact h.1
      rw [← hk1, ← hk2, hc]
    cases j1 <;> cases j2 <;>
      first
        | (rw [kindOf, kindOf] at hkind; exact absurd hkind (by decide))
        | skip
    · exact ⟨rfl, List.append_cancel_left h⟩
    · rename_i b1 b2
      cases b1 <;> cases b2
      · exact ⟨rfl, List.append_cancel_left h⟩
      · exact absurd h (by simp [serJ])
      · exact absurd h (by simp [serJ])
      · exact ⟨rfl, List.append_cancel_left h⟩
    · rename_i tok1 tok2
      rw [NumsWf] at hw1 hw2
      obtain ⟨-, hall1, -⟩ := hw1
      obtain ⟨-, hall2, -⟩ := hw2
      simp only [serJ] at h
      obtain ⟨hdata, ht⟩ := classBlock_unique tok1.data hall1 hall2 hg1 hg2 h
      refine ⟨?_, ht⟩
      have htok : tok1 = tok2 := by
        cases tok1; cases tok2; exact congrArg String.mk (by simpa using hdata)
      rw [htok]
    · rename_i s1 s2
      simp only [serJ] at h
      obtain ⟨hs, ht⟩ := serStrChars_unique h
      exact ⟨by rw [hs], ht⟩
    · rename_i xs ys
      simp only [serJ] at h
      simp only [List.cons_append, List.append_assoc, List.singleton_append,
        List.cons.injEq, true_and] at h
      have hszx : sizeOf xs < n := by
        rw [Json.arr.sizeOf_spec] at hsz; omega
      rw [NumsWf] at hw1 hw2
      obtain ⟨hxs, ht⟩ := (ih (sizeOf xs) hszx).2.1 xs ys t1 t2 le_rfl hw1 hw2 h
      exact ⟨by rw [hxs], ht⟩
    · rename_i kvs lvs
      simp only [serJ] at h
      simp only [List.cons_append, List.append_assoc, List.singleton_append,
        List.cons.injEq, true_and] at h
      have hszk : sizeOf kvs < n := by
        rw [Json.obj.sizeOf_spec] at hsz; omega
      rw [NumsWf] at hw1 hw2
      obtain ⟨hkvs, ht⟩ := (ih (sizeOf kvs) hszk).2.2.2.1 kvs lvs t1 t2 le_rfl hw1 hw2 h
      exact ⟨by rw [hkvs], ht⟩
  -- array elements
  · intro xs ys t1 t2 hsz hw1 hw2 h
    cases xs with
    | nil =>
      cases ys with
      | nil =>
        simp only [serElems, List.nil_append, List.cons.injEq, true_and] at h
        exact ⟨rfl, h⟩
      | cons y ys' =>
        exfalso
        rw [NumsWfList] at hw2
        obtain ⟨c, u, he, hk⟩ := serJ_head hw2.1
        simp only [serElems, List.nil_append, List.append_assoc] at h
        rw [he] at h
        simp only [List.cons_append, List.cons.injEq] at h
        rw [← h.1] at hk
        cases y <;> rw [kindOf] at hk <;> exact absurd hk (by decide)
    | cons x xs' =>
      cases ys with
      | nil =>
        exfalso
        rw [NumsWfList] at hw1
        obtain ⟨c, u, he, hk⟩ := serJ_head hw1.1
        simp only [serElems, List.nil_append, List.append_assoc] at h
        rw [he] at h
        simp only [List.cons_append, List.cons.injEq] at h
        rw [h.1] at hk
        cases x <;> rw [kindOf] at hk <;> exact absurd hk (by decide)
      | cons y ys' =>
        rw [NumsWfList] at hw1 hw2
        simp only [serElems, List.append_assoc] at h
        have hszx : sizeOf x < n := by
          rw [List.cons.sizeOf_spec] at hsz; omega
        have hszxs : sizeOf xs' < n := by
          rw [List.cons.sizeOf_spec] at hsz; omega
        obtain ⟨hxy, hrest⟩ := (ih (sizeOf x) hszx).1 x y _ _ le_rfl hw1.1 hw2.1
          (noClassHead_elemsTail xs' t1) (noClassHead_elemsTail ys' t2) h
        obtain ⟨hxs, ht⟩ := (ih (sizeOf xs') hszxs).2.2.1 xs' ys' t1 t2 le_rfl
          hw1.2 hw2.2 hrest
        exact ⟨by rw [hxy, hxs], ht⟩
  -- array element tails
  · intro xs ys t1 t2 hsz hw1 hw2 h
    cases xs with
    | nil =>
      cases ys with
      | nil =>
        simp only [serElemsTail, List.nil_append, List.cons.injEq, true_and] at h
        exact ⟨rfl, h⟩
      | cons y ys' =>
        exfalso
        simp only [serElemsTail, List.nil_append, List.cons_append,
          List.cons.injEq] at h
        exact absurd h.1 (by decide)
    | cons x xs' =>
      cases ys with
      | nil =>
        exfalso
        simp only [serElemsTail, List.nil_append, List.cons_append,
          List.cons.injEq] at h
        exact absurd h.1 (by decide)
      | cons y ys' =>
        rw [NumsWfList] at hw1 hw2
        simp only [serElemsTail, List.cons_append, List.append_assoc,
          List.cons.injEq, true_and] at h
        have hszx : sizeOf x < n := by
          rw [List.cons.sizeOf_spec] at hsz; omega
        have hszxs : sizeOf xs' < n := by
          rw [List.cons.sizeOf_spec] at hsz; omega
        obtain ⟨hxy, hrest⟩ := (ih (sizeOf x) hszx).1 x y _ _ le_rfl hw1.1 hw2.1
          (noClassHead_elemsTail xs' t1) (noClassHead_elemsTail ys' t2) h
        obtain ⟨hxs, ht⟩ := (ih (sizeOf xs') hszxs).2.2.1 xs' ys' t1 t2 le_rfl
          hw1.2 hw2.2 hrest
        exact ⟨by rw [hxy, hxs], ht⟩
  -- object entries
  · intro kvs lvs t1 t2 hsz hw1 hw2 h
    cases kvs with
    | nil =>
      cases lvs with
      | nil =>
        simp only [serEntries, List.nil_append, List.cons.injEq, true_and] at h
        exact ⟨rfl, h⟩
      | cons e lvs' =>
        exfalso
        obtain ⟨k, v⟩ := e
        simp only [serEntries, serEntry, serStrChars, List.nil_append,
          List.cons_append, List.append_assoc, List.cons.injEq] at h
        exact absurd h.1 (by decide)
    | cons e kvs' =>
      cases lvs with
      | nil =>
        exfalso
        obtain ⟨k, v⟩ := e
        simp only [serEntries, serEntry, serStrChars, List.nil_append,
          List.cons_append, List.append_assoc, List.cons.injEq] at h
        exact absurd h.1 (by decide)
      | cons e2 lvs' =>
        obtain ⟨k, v⟩ := e
        obtain ⟨k2, v2⟩ := e2
        rw [NumsWfEntries] at hw1 hw2
        simp only [serEntries, serEntry, List.append_assoc, List.cons_append] at h
        obtain ⟨hk, h2⟩ := serStrChars_unique h
        simp only [List.cons.injEq, eq_self_iff_true, true_and] at h2
        have hszv : sizeOf v < n := by
          rw [List.cons.sizeOf_spec, Prod.mk.sizeOf_spec] at hsz; omega
        have hszkvs : sizeOf kvs' < n := by
          rw [List.cons.sizeOf_spec] at hsz; omega
        obtain ⟨hv, hrest⟩ := (ih (sizeOf v) hszv).1 v v2 _ _ le_rfl hw1.1 hw2.1
          (noClassHead_entriesTail kvs' t1) (noClassHead_entriesTail lvs' t2) h2
        obtain ⟨hkvs, ht⟩ := (ih (sizeOf kvs') hszkvs).2.2.2.2 kvs' lvs' t1 t2 le_rfl
          hw1.2 hw2.2 hrest
        exact ⟨by rw [hk, hv, hkvs], ht⟩
  -- object entry tails
  · intro kvs lvs t1 t2 hsz hw1 hw2 h
    cases kvs with
    | nil =>
      cases lvs with
      | nil =>
        simp only [serEntriesTail, List.nil_append, List.cons.injEq, true_and] at h
        exact ⟨rfl, h⟩
      | cons e lvs' =>
        exfalso
        simp only [serEntriesTail, List.nil_append, List.cons_append,
          List.cons.injEq] at h
        exact absurd h.1 (by decide)
    | cons e kvs' =>
      cases lvs with
      | nil =>
        exfalso
        simp only [serEntriesTail, List.nil_append, List.cons_append,
          List.cons.injEq] at h
        exact absurd h.1 (by decide)
      | cons e2 lvs' =>
        obtain ⟨k, v⟩ := e
        obtain ⟨k2, v2⟩ := e2
        rw [NumsWfEntries] at hw1 hw2
        simp only [serEntriesTail, serEntry, List.cons_append, List.append_assoc,
          List.cons.injEq, true_and] at h
        obtain ⟨hk, h2⟩ := serStrChars_unique h
        simp only [List.cons.injEq, eq_self_iff_true, true_and] at h2
        have hszv : sizeOf v < n := by
          rw [List.cons.sizeOf_spec, Prod.mk.sizeOf_spec] at hsz; omega
        have hszkvs : sizeOf kvs' < n := by
          rw [List.cons.sizeOf_spec] at hsz; omega
        obtain ⟨hv, hrest⟩ := (ih (sizeOf v) hszv).1 v v2 _ _ le_rfl hw1.1 hw2.1
          (noClassHead_entriesTail kvs' t1) (noClassHead_entriesTail lvs' t2) h2
        obtain ⟨hkvs, ht⟩ := (ih (sizeOf kvs') hszkvs).2.2.2.2 kvs' lvs' t1 t2 le_rfl
          hw1.2 hw2.2 hrest
        exact ⟨by rw [hk, hv, hkvs], ht⟩

/-- The serializer is injective on wellformed JSON values. -/
theorem serJ_injective {j1 j2 : Json} (h1 : NumsWf j1) (h2 : NumsWf j2)
    (h : serJ j1 = serJ j2) : j1 = j2 :=
  ((ser_unique (sizeOf j1)).1 j1 j2 [] [] le_rfl h1 h2 trivial trivial
    (by rw [List.append_nil, List.append_nil, h])).1

mutual

/-- Key sorting preserves wellformedness of numeric tokens. -/
theorem numsWf_sortKeysDeep : ∀ j : Json, NumsWf j → NumsWf (sortKeysDeep j)
  | .null, h => by rw [sortKeysDeep]; exact h
  | .bool _, h => by rw [sortKeysDeep]; exact h
  | .num _, h => by rw [sortKeysDeep]; exact h
  | .str _, h => by rw [sortKeysDeep]; exact h
  | .arr xs, h => by
    rw [sortKeysDeep, NumsWf]
    rw [NumsWf] at h
    exact numsWf_sortKeysDeepList xs h
  | .obj kvs, h => by
    rw [sortKeysDeep, NumsWf]
    rw [NumsWf] at h
    have hents := numsWf_sortKeysDeepEntries kvs h
    rw [numsWfEntries_iff] at hents ⊢
    intro kv hkv
    exact hents kv ((List.perm_insertionSort entryLE _).subset hkv)

/-- Elementwise version of `numsWf_sortKeysDeep`. -/
theorem numsWf_sortKeysDeepList :
    ∀ xs : List Json, NumsWfList xs → NumsWfList (sortKeysDeepList xs)
  | [], h => by rw [sortKeysDeepList]; exact h
  | x :: xs, h => by
    rw [sortKeysDeepList, NumsWfList]
    rw [NumsWfList] at h
    exact ⟨numsWf_sortKeysDeep x h.1, numsWf_sortKeysDeepList xs h.2⟩

/-- Entrywise version of `numsWf_sortKeysDeep`. -/
theorem numsWf_sortKeysDeepEntries :
    ∀ kvs : List (String × Json),
      NumsWfEntries kvs → NumsWfEntries (sortKeysDeepEntries kvs)
  | [], h => by rw [sortKeysDeepEntries]; exact h
  | (k, v) :: kvs, h => by
    rw [sortKeysDeepEntries, NumsWfEntries]
    rw [NumsWfEntries] at h
    exact ⟨numsWf_sortKeysDeep v h.1, numsWf_sortKeysDeepEntries kvs h.2⟩

end

/-- Canonical-byte equality of wellformed JSON values forces logical
equality: canonicalization identifies exactly the key-reorderings. -/
theorem canonicalizeJson_eq_jeqv {j1 j2 : Json} (h1 : NumsWf j1) (h2 : NumsWf j2)
    (h : canonicalizeJson j1 = canonicalizeJson j2) : JEqv j1 j2 := by
  have hser : serJ (sortKeysDeep j1) = serJ (sortKeysDeep j2) := by
    have hd := congrArg String.data h
    simpa [canonicalizeJson, jsonStringify] using hd
  have hsort : sortKeysDeep j1 = sortKeysDeep j2 :=
    serJ_injective (numsWf_sortKeysDeep j1 h1) (numsWf_sortKeysDeep j2 h2) hser
  exact Relation.ReflTransGen.trans (jeqv_sortKeysDeep j1)
    (hsort ▸ jeqv_symm (jeqv_sortKeysDeep j2))

/-- In two entry lists whose sorted images are permutations and whose keys
are duplicate-free, a shared key maps to the same sorted value. -/
theorem mapped_key_value_unique {l1 l2 : List (String × Json)}
    (hperm : (l1.map fun kv => (kv.1, sortKeysDeep kv.2)).Perm
      (l2.map fun kv => (kv.1, sortKeysDeep kv.2)))
    (hnd2 : (l2.map Prod.fst).Nodup)
    {k : String} {v w : Json} (hmem1 : (k, v) ∈ l1) (hmem2 : (k, w) ∈ l2) :
    sortKeysDeep v = sortKeysDeep w := by
  have hv : (k, sortKeysDeep v)
      ∈ l2.map fun kv => (kv.1, sortKeysDeep kv.2) :=
    hperm.subset (List.mem_map_of_mem _ hmem1)
  have hw : (k, sortKeysDeep w)
      ∈ l2.map fun kv => (kv.1, sortKeysDeep kv.2) :=
    List.mem_map_of_mem _ hmem2
  have hndf : (((l2.map fun kv => (kv.1, sortKeysDeep kv.2)).map Prod.fst)).Nodup := by
    rw [List.map_map]
    exact hnd2
  have hpair := List.inj_on_of_nodup_map hndf hv hw rfl
  exact congrArg Prod.snd hpair

/-- The credential object's property keys are duplicate-free. -/
theorem credEntries_keys_nodup (c : ServiceVerifiedCredential) :
    ((credEntries c).map Prod.fst).Nodup := by
  rcases hexp : c.expires_at with - | e <;> rcases hev : c.evidence with - | ev <;>
    simp [credEntries, hexp, hev]

/-- Canonical-byte equality of two wellformed credentials forces logical
equality of every field, the evidence payload up to key order. -/
theorem canonical_eq_credEqv {c c' : ServiceVerifiedCredential}
    (h1 : CredNumsWf c) (h2 : CredNumsWf c')
    (h : canonicalizeCredential c = canonicalizeCredential c') : CredEqv c c' := by
  unfold CredNumsWf at h1 h2
  have hj : sortKeysDeep (credToJson c) = sortKeysDeep (credToJson c') := by
    apply serJ_injective (numsWf_sortKeysDeep _ h1) (numsWf_sortKeysDeep _ h2)
    exact congrArg String.data h
  simp only [credToJson, sortKeysDeep] at hj
  have hobj : List.insertionSort entryLE (sortKeysDeepEntries (credEntries c))
      = List.insertionSort entryLE (sortKeysDeepEntries (credEntries c')) := by
    injection hj
  have hperm : ((credEntries c).map fun kv => (kv.1, sortKeysDeep kv.2)).Perm
      ((credEntries c').map fun kv => (kv.1, sortKeysDeep kv.2)) := by
    rw [← sortKeysDeepEntries_eq_map, ← sortKeysDeepEntries_eq_map]
    exact ((List.perm_insertionSort entryLE _).symm.trans
      (hobj ▸ List.perm_insertionSort entryLE _))
  have hndc' := credEntries_keys_nodup c'
  have extract : ∀ (k : String) (v w : Json), (k, v) ∈ credEntries c →
      (k, w) ∈ credEntries c' → sortKeysDeep v = sortKeysDeep w :=
    fun _ _ _ hv hw => mapped_key_value_unique hperm hndc' hv hw
  have hkeys : ((credEntries c).map Prod.fst).Perm ((credEntries c').map Prod.fst) := by
    have hmap := hperm.map Prod.fst
    rw [List.map_map, List.map_map] at hmap
    exact hmap
  refine ⟨?_, ?_, ?_, ?_, ?_, ?_, ?_, ?_, ?_⟩
  · have hx := extract "schema_version" (Json.str c.schema_version) (Json.str c'.schema_version)
      (by simp [credEntries]) (by simp [credEntries])
    simp only [sortKeysDeep, Json.str.injEq] at hx
    exact hx
  · have hx := extract "did" (Json.str c.did) (Json.str c'.did)
      (by simp [credEntries]) (by simp [credEntries])
    simp only [sortKeysDeep, Json.str.injEq] at hx
    exact hx
  · have hx := extract "id" (Json.str c.id) (Json.str c'.id)
      (by simp [credEntries]) (by simp [credEntries])
    simp only [sortKeysDeep, Json.str.injEq] at hx
    exact hx
  · have hx := extract "status" (Json.str c.status) (Json.str c'.status)
      (by simp [credEntries]) (by simp [credEntries])
    simp only [sortKeysDeep, Json.str.injEq] at hx
    exact hx
  · have hx := extract "source" (Json.str c.source) (Json.str c'.source)
      (by simp [credEntries]) (by simp [credEntries])
    simp only [sortKeysDeep, Json.str.injEq] at hx
    exact hx
  · have hx := extract "created_at" (Json.str c.created_at) (Json.str c'.created_at)
      (by simp [credEntries]) (by simp [credEntries])
    simp only [sortKeysDeep, Json.str.injEq] at hx
    exact hx
  · have hx := extract "updated_at" (Json.str c.updated_at) (Json.str c'.updated_at)
      (by simp [credEntries]) (by simp [credEntries])
    simp only [sortKeysDeep, Json.str.injEq] at hx
    exact hx
  · rcases hexp : c.expires_at with - | e <;> rcases hexp' : c'.expires_at with - | e'
    · rfl
    · exfalso
      have hin : "expires_at" ∈ (credEntries c').map Prod.fst := by
        simp [credEntries, hexp']
      have hin' := hkeys.symm.subset hin
      rcases hev0 : c.evidence with - | ev0 <;>
        simp [credEntries, hexp, hev0] at hin'
    · exfalso
      have hin : "expires_at" ∈ (credEntries c).map Prod.fst := by
        simp [credEntries, hexp]
      have hin' := hkeys.subset hin
      rcases hev0 : c'.evidence with - | ev0 <;>
        simp [credEntries, hexp', hev0] at hin'
    · have hx := extract "expires_at" (Json.str e) (Json.str e')
        (by simp [credEntries, hexp]) (by simp [credEntries, hexp'])
      simp only [sortKeysDeep, Json.str.injEq] at hx
      rw [hx]
  · rcases hev : c.evidence with - | ev <;> rcases hev' : c'.evidence with - | ev'
    · simp only [EvidenceEqv]
    · exfalso
      have hin : "evidence" ∈ (credEntries c').map Prod.fst := by
        simp [credEntries, hev']
      have hin' := hkeys.symm.subset hin
      rcases hexp0 : c.expires_at with - | e0 <;>
        simp [credEntries, hev, hexp0] at hin'
    · exfalso
      have hin : "evidence" ∈ (credEntries c).map Prod.fst := by
        simp [credEntries, hev]
      have hin' := hkeys.subset hin
      rcases hexp0 : c'.expires_at with - | e0 <;>
        simp [credEntries, hev', hexp0] at hin'
    · have hx := extract "evidence"
        (Json.obj [("type", Json.str ev.type), ("payload", ev.payload)])
        (Json.obj [("type", Json.str ev'.type), ("payload", ev'.payload)])
        (by simp [credEntries, hev]) (by simp [credEntries, hev'])
      simp only [sortKeysDeep, sortKeysDeepEntries, List.insertionSort,
        List.orderedInsert] at hx
      have hlt : ("payload" : String) < "type" := by
        rw [String.lt_iff_toList_lt]; decide
      rw [if_neg (show ¬ entryLE ("type", Json.str ev.type)
            ("payload", sortKeysDeep ev.payload) from not_le.mpr hlt),
        if_neg (show ¬ entryLE ("type", Json.str ev'.type)
            ("payload", sortKeysDeep ev'.payload) from not_le.mpr hlt)] at hx
      simp only [Json.obj.injEq, List.cons.injEq, Prod.mk.injEq, Json.str.injEq,
        and_true, true_and] at hx
      simp only [EvidenceEqv]
      refine ⟨hx.2, ?_⟩
      exact Relation.ReflTransGen.trans (jeqv_sortKeysDeep _)
        (hx.1 ▸ jeqv_symm (jeqv_sortKeysDeep _))

/-- C4: after signing, replacing the credential's fields by any logically
different field values — for example a changed status — makes
`verifySignature` return `false` with the matching public key, because
verification recomputes the canonical bytes from the current field values
rather than trusting the stored hash. -/
theorem C4_mutation_invalidates_signature (c c' : ServiceVerifiedCredential)
    (sk : Ed25519PrivateKey) (now : String)
    (h1 : CredNumsWf c) (h2 : CredNumsWf c') (hne : ¬ CredEqv c c') :
    verifySignature
      { cred := c', verification := (signCredential c sk now).verification }
      (ed25519PubKey sk) = false := by
  have hcc : ¬ canonicalizeCredential c = canonicalizeCredential c' :=
    fun heq => hne (canonical_eq_credEqv h1 h2 heq)
  simp only [verifySignature, signCredential, edVerify, edSign, ed25519PubKey,
    Bool.and_eq_false_iff]
  exact Or.inl (beq_eq_false_iff_ne.mpr hcc)

/-- Witness for C4 at a concrete input: flipping the sample credential's
status to `revoked` after signing makes verification fail. -/
theorem C4_mutation_invalidates_signature_witness :
    verifySignature
      { cred := { sampleCredential with status := "revoked" },
        verification :=
          (signCredential sampleCredential samplePrivateKey
            "2026-02-13T10:00:01.000Z").verification }
      (ed25519PubKey samplePrivateKey) = false :=
  C4_mutation_invalidates_signature sampleCredential
    { sampleCredential with status := "revoked" } samplePrivateKey
    "2026-02-13T10:00:01.000Z"
    (by simp [CredNumsWf, credToJson, credEntries, sampleCredential, sampleEvidence,
      NumsWf, NumsWfEntries, NumsWfList])
    (by simp [CredNumsWf, credToJson, credEntries, sampleCredential, sampleEvidence,
      NumsWf, NumsWfEntries, NumsWfList])
    (fun hc => absurd hc.2.2.2.1 (by decide))

/-- C8 amended: the errors list of `verifyCredential` carries exactly one
entry, with its stable machine-readable code, for each failed check among
the five axes didFormatValid, didResolvable, statusValid, timeValid and
evidenceValid; a false `signatureValid` never contributes an entry of its
own (in the source such an entry would arise only from a caught exception,
and every modelled path is total); and `errors` is omitted (`none`) exactly
when those five axes all pass — in particular whenever all six checks are
true. -/
theorem C8_errors_one_per_failed_axis
    (registry : List ResolutionRecord) (parseDate : String → Int) (now : Int)
    (credential : SignedCredential) :
    (((verifyCredential registry parseDate now credential).errors.getD []).countP
        (fun e => e.check == "didFormatValid" && e.code == "INVALID_DID_FORMAT")
      = if (verifyCredential registry parseDate now credential).checks.didFormatValid
          then 0 else 1)
    ∧ (((verifyCredential registry parseDate now credential).errors.getD []).countP
        (fun e => e.check == "didResolvable" && e.code == "DID_NOT_FOUND")
      = if (verifyCredential registry parseDate now credential).checks.didResolvable
          then 0 else 1)
    ∧ (((verifyCredential registry parseDate now credential).errors.getD []).countP
        (fun e => e.check == "statusValid" && e.code == "CREDENTIAL_INVALID_STATUS")
      = if (verifyCredential registry parseDate now credential).checks.statusValid
          then 0 else 1)
    ∧ (((verifyCredential registry parseDate now credential).errors.getD []).countP
        (fun e => e.check == "timeValid" && e.code == "CREDENTIAL_EXPIRED")
      = if (verifyCredential registry parseDate now credential).checks.timeValid
          then 0 else 1)
    ∧ (((verifyCredential registry parseDate now credential).errors.getD []).countP
        (fun e => e.check == "evidenceValid" && e.code == "INVALID_EVIDENCE")
      = if (verifyCredential registry parseDate now credential).checks.evidenceValid
          then 0 else 1)
    ∧ (((verifyCredential registry parseDate now credential).errors.getD []).countP
        (fun e => e.check == "signatureValid") = 0)
    ∧ (((verifyCredential registry parseDate now credential).errors.getD []).length
      = (if (verifyCredential registry parseDate now credential).checks.didFormatValid
           then 0 else 1)
        + (if (verifyCredential registry parseDate now credential).checks.didResolvable
           then 0 else 1)
        + (if (verifyCredential registry parseDate now credential).checks.statusValid
           then 0 else 1)
        + (if (verifyCredential registry parseDate now credential).checks.timeValid
           then 0 else 1)
        + (if (verifyCredential registry parseDate now credential).checks.evidenceValid
           then 0 else 1))
    ∧ ((verifyCredential registry parseDate now credential).errors = none
      ↔ ((verifyCredential registry parseDate now credential).checks.didFormatValid = true
        ∧ (verifyCredential registry parseDate now credential).checks.didResolvable = true
        ∧ (verifyCredential registry parseDate now credential).checks.statusValid = true
        ∧ (verifyCredential registry parseDate now credential).checks.timeValid = true
        ∧ (verifyCredential registry parseDate now credential).checks.evidenceValid = true)) := by
  by_cases h1 : isValidDid credential.cred.did <;>
    rcases hres : resolveDID registry credential.cred.did with msg | doc <;>
    by_cases h3 : (credential.cred.status == "revoked"
      || credential.cred.status == "rejected") = true <;>
    rcases hexp : credential.cred.expires_at with - | e <;>
    rcases hevd : credential.cred.evidence with - | ev
  all_goals try by_cases h4 : now ≤ parseDate e
  all_goals try by_cases h5 : (ev.type != "" && payloadIsTruthyObject ev.payload) = true
  all_goals
    simp_all [verifyCredential, List.countP_cons, List.countP_nil]
  all_goals try (rcases h3 with h3 | h3 <;> simp_all)
  all_goals try (by_cases h6 : ev.type = "")
  all_goals try (by_cases h7 : payloadIsTruthyObject ev.payload = true)
  all_goals try simp_all
  all_goals (split_ifs <;> simp_all)

end ServiceVerified
